import Mathlib

/-!
# Shallow embedding of `app/assembly_store.py`

This file models the `RowData` and `AssemblyStore` classes of the
repository's `assembly_store.py` and proves properties of the model.

Python 2 byte strings are modelled as `List Nat` (one entry per byte),
Python text strings as Lean `String` (with the character-level helpers
below mirroring the Python `str` methods used by the source), and Python
exceptions as `Option`/`Except` results.
-/

set_option autoImplicit false

/-! ## Python string helpers -/

/-- Model of Python `str.strip()` (on a character list): drop leading and
trailing whitespace. -/
def pyStrip (l : List Char) : List Char :=
  ((l.dropWhile Char.isWhitespace).reverse.dropWhile Char.isWhitespace).reverse

/-- Auxiliary splitter: cut a character list at every whitespace character,
keeping (possibly empty) groups.  `splitGroups` never returns `[]`. -/
def splitGroups : List Char → List (List Char)
  | [] => [[]]
  | c :: cs =>
    if c.isWhitespace then [] :: splitGroups cs
    else (c :: (splitGroups cs).headD []) :: (splitGroups cs).tail

/-- Model of Python `str.split()` with no argument: the maximal runs of
non-whitespace characters, in order. -/
def pySplitW (l : List Char) : List (List Char) :=
  (splitGroups l).filter (fun t => t ≠ [])

/-- Value of a hexadecimal digit character, if it is one
(`0-9`, `a-f`, `A-F`). -/
def hexVal? (c : Char) : Option Nat :=
  if '0' ≤ c ∧ c ≤ '9' then some (c.toNat - 48)
  else if 'a' ≤ c ∧ c ≤ 'f' then some (c.toNat - 87)
  else if 'A' ≤ c ∧ c ≤ 'F' then some (c.toNat - 55)
  else none

/-- Model of Python 2 `binascii.unhexlify`: decode pairs of hex digits to
bytes; `none` (a raised `TypeError`) on an odd-length input or a
non-hex-digit character. -/
def pyUnhexlify : List Char → Option (List Nat)
  | [] => some []
  | [_] => none
  | a :: b :: rest =>
    match hexVal? a, hexVal? b, pyUnhexlify rest with
    | some x, some y, some tail => some ((x * 16 + y) :: tail)
    | _, _, _ => none

/-- The lower-case hex digit for a value `< 16`, as produced by
`binascii.hexlify`. -/
def hexDigit (d : Nat) : Char :=
  if d < 10 then Char.ofNat (48 + d) else Char.ofNat (87 + d)

/-- Model of Python 2 `binascii.hexlify` on a byte string: each byte becomes
two lower-case hex digit characters. -/
def pyHexlify (bs : List Nat) : List Char :=
  bs.flatMap (fun b => [hexDigit (b / 16), hexDigit (b % 16)])

/-! ## RowData -/

/-- One row of the assembly listing (`RowData` in the source).  `opcode` is
a Python 2 byte string, kept as a list of byte values. -/
structure RowData where
  offset : Nat
  label : String
  address : Int
  opcode : List Nat
  mnemonic : String
  comment : String
  index : Nat
  in_use : Bool
  error : Bool
  targets : List Int
  is_a_data_defintion_inst : Bool
  is_branch_or_call : Bool
  stack_delta : Int
  deriving DecidableEq, Repr

/-- `RowData.__init__`: note that the `offset` argument is ignored and the
field is initialised to `0`, exactly as in the source. -/
def mkRowData (offset : Nat) (label : String) (address : Int) (opcode : List Nat)
    (mnemonic : String) (comment : String) (index : Nat) (in_use : Bool) : RowData :=
  { offset := 0
    label := label
    address := address
    opcode := opcode
    mnemonic := mnemonic
    comment := comment
    index := index
    in_use := in_use
    error := false
    targets := [0]
    is_a_data_defintion_inst := false
    is_branch_or_call := false
    stack_delta := 0 }

instance : Inhabited RowData := ⟨mkRowData 0 "" 0 [] "" "" 0 false⟩

/-- `RowData.SetOpcode`: strip spaces (only the space character, per
`replace(' ','')`), hex-decode; on failure mark the row unusable, install
the sentinel mnemonic and keep the raw text bytes as the opcode. -/
def RowData.SetOpcode (r : RowData) (hex_str : String) : RowData :=
  match pyUnhexlify (hex_str.toList.filter (fun c => c ≠ ' ')) with
  | some bs => { r with opcode := bs, in_use := true }
  | none =>
    { r with in_use := false
             opcode := hex_str.toList.map Char.toNat
             mnemonic := "<INVALID OPCODE SUPPLIED>"
             error := true }

/-- `RowData.SetMnemonic`.  The normalized text is `mnemonic.lower().strip()`
and the branch/call test is `startswith` on that whole normalized text; the
data-definition test compares its leading token against `db/dw/dd/dq`.  The
`Except.error` results model the `IndexError` raised by `split()[0]` on
whitespace-only input, carrying the partially mutated row (the source
mutates `self` before indexing). -/
def RowData.SetMnemonic (r : RowData) (mnemonic : String) : Except RowData RowData :=
  if mnemonic = "" then Except.ok { r with in_use := false }
  else
    match pySplitW (pyStrip (mnemonic.toList.map Char.toLower)) with
    | [] =>
      Except.error { r with
        mnemonic := mnemonic
        is_branch_or_call :=
          ("j".toList.isPrefixOf (pyStrip (mnemonic.toList.map Char.toLower)) ||
           "call".toList.isPrefixOf (pyStrip (mnemonic.toList.map Char.toLower))) }
    | t :: _ =>
      if t = "db".toList || t = "dw".toList || t = "dd".toList || t = "dq".toList then
        match pySplitW mnemonic.toList with
        | [] =>
          Except.error { r with
            mnemonic := mnemonic
            is_branch_or_call :=
              ("j".toList.isPrefixOf (pyStrip (mnemonic.toList.map Char.toLower)) ||
               "call".toList.isPrefixOf (pyStrip (mnemonic.toList.map Char.toLower)))
            is_a_data_defintion_inst := true }
        | u :: us =>
          Except.ok { r with
            mnemonic := String.mk ((u.map Char.toUpper) ++ (' ' :: us.flatten))
            is_branch_or_call :=
              ("j".toList.isPrefixOf (pyStrip (mnemonic.toList.map Char.toLower)) ||
               "call".toList.isPrefixOf (pyStrip (mnemonic.toList.map Char.toLower)))
            is_a_data_defintion_inst := true
            in_use := true }
      else
        Except.ok { r with
          mnemonic := String.mk (mnemonic.toList.map Char.toUpper)
          is_branch_or_call :=
            ("j".toList.isPrefixOf (pyStrip (mnemonic.toList.map Char.toLower)) ||
             "call".toList.isPrefixOf (pyStrip (mnemonic.toList.map Char.toLower)))
          is_a_data_defintion_inst := false
          in_use := true }

/-- The space-insertion loop of `RowData.DisplayOpcode`: after every
character at an odd position a space is appended. -/
def addPairSpaces : List Char → List Char
  | a :: b :: rest => a :: b :: ' ' :: addPairSpaces rest
  | l => l

/-- `RowData.DisplayOpcode`: hexlify the opcode bytes, insert a space after
every pair, strip the trailing space. -/
def RowData.DisplayOpcode (r : RowData) : String :=
  String.mk (pyStrip (addPairSpaces (pyHexlify r.opcode)))

/-- The parse direction of the spec's round-trip property: strip the spaces
and hex-decode (`parseHexDisplay` in the spec). -/
def parseHexDisplay (s : String) : Option (List Nat) :=
  pyUnhexlify (s.toList.filter (fun c => c ≠ ' '))

/-! ## AssemblyStore -/

/-- The capstone architecture constants used by `SetCPU`. -/
def CS_ARCH_ARM : Nat := 0
def CS_ARCH_ARM64 : Nat := 1
def CS_ARCH_MIPS : Nat := 2
def CS_ARCH_X86 : Nat := 3

/-- The assembler session state (`AssemblyStore` in the source).  `cfg` is
always `None` in the source and is omitted. -/
structure AssemblyStore where
  bits : Nat
  cpu : Option Nat
  display_labels : Bool
  rows : List RowData
  labels : List String
  deriving DecidableEq, Repr

/-- `AssemblyStore.__init__`: 32 bits, x86 cpu, 20 empty placeholder rows
numbered `0..19`. -/
def initStore : AssemblyStore :=
  { bits := 32
    cpu := some CS_ARCH_X86
    display_labels := true
    rows := (List.range 20).map (fun i => mkRowData 0 "" 0 [] "" "" i false)
    labels := [] }

instance : Inhabited AssemblyStore := ⟨initStore⟩

/-- The position at which Python `list.insert(i, x)` actually inserts:
non-negative indices are clamped to the length, negative indices count from
the end and are clamped to `0`. -/
def pyInsertPos (len : Nat) (i : Int) : Nat :=
  if i < 0 then ((len : Int) + i).toNat else min i.toNat len

/-- The normalized index used by Python sequence indexing (`rows[i]`,
`rows.pop(i)`): negative values count from the end. -/
def pyNormPos (n : Nat) (i : Int) : Nat :=
  (if i < 0 then (n : Int) + i else i).toNat

/-- Validity of a Python sequence index: `-n ≤ i < n`. -/
def pyIdxOk (n : Nat) (i : Int) : Prop :=
  -(n : Int) ≤ i ∧ i < (n : Int)

instance (n : Nat) (i : Int) : Decidable (pyIdxOk n i) := by
  unfold pyIdxOk; infer_instance

/-- Insertion at a (clamped) position `pos ≤ l.length`, as `list.insert`. -/
def pyInsert : Nat → RowData → List RowData → List RowData
  | 0, x, l => x :: l
  | _ + 1, x, [] => [x]
  | p + 1, x, y :: ys => y :: pyInsert p x ys

/-- The renumbering loops of `InsertRowAt`/`DeleteRow`
(`self.rows[i].index = i` for `i` in `xrange(start, len(self.rows))`),
with `base` the position of the first list element. -/
def renumberAux (start : Nat) : Nat → List RowData → List RowData
  | _, [] => []
  | base, r :: rs =>
    (if start ≤ base then { r with index := base } else r) :: renumberAux start (base + 1) rs

/-- Renumber the `index` fields of all rows at positions `≥ start`. -/
def renumberFrom (start : Nat) (rows : List RowData) : List RowData :=
  renumberAux start 0 rows

/-- The loop body of `UpdateOffsetsAndAddresses` over `rows[1:]`: rows not
in use are skipped, rows in use receive the running address and offset. -/
def updateRows (addr : Int) (off : Nat) : List RowData → List RowData
  | [] => []
  | r :: rs =>
    if r.in_use then
      { r with address := addr, offset := off } ::
        updateRows (addr + (r.opcode.length : Int)) (off + r.opcode.length) rs
    else
      r :: updateRows addr off rs

/-- `AssemblyStore.UpdateOffsetsAndAddresses`: row 0 gets offset 0 and the
running address/offset start from row 0's address plus row 0's opcode
length (regardless of row 0's `in_use` flag).  `none` is the `IndexError`
raised by `self.rows[0]` on an empty store. -/
def UpdateOffsetsAndAddresses (s : AssemblyStore) : Option AssemblyStore :=
  match s.rows with
  | [] => none
  | r0 :: rest =>
    some { s with rows :=
      { r0 with offset := 0 } ::
        updateRows (r0.address + (r0.opcode.length : Int)) r0.opcode.length rest }

/-- Where the renumbering loop `for i in xrange(index + 1, len(rows))` of
`InsertRowAt` effectively starts, as a position in the list of `n + 1` rows.
For a non-negative index it is `index + 1`.  For a negative index the loop
starts at the negative value `index + 1` and Python's wraparound indexing
first touches positions near the end of the list, but the loop then goes on
through `i = 0 .. n` and overwrites every `index` field with its position —
so the completed loop renumbers from position `0`. -/
def insStart (i : Int) : Nat :=
  if 0 ≤ i then (i + 1).toNat else 0

/-- The renumbering loop completes exactly when its first iteration
`rows[index + 1]` (on the list of `n + 1` rows) is in range:
`index + 1 ≥ -(n + 1)`.  For `index ≤ -(n + 3)` it raises `IndexError`. -/
def insOk (n : Nat) (i : Int) : Prop :=
  -((n : Int) + 2) ≤ i

instance (n : Nat) (i : Int) : Decidable (insOk n i) := by
  unfold insOk; infer_instance

/-- The rows of the store after `InsertRowAt`'s structural edit: the row
inserted at the clamped position and the completed renumbering loop
applied. -/
def insRows (s : AssemblyStore) (index : Int) (row : RowData) : List RowData :=
  renumberFrom (insStart index) (pyInsert (pyInsertPos s.rows.length index) row s.rows)

/-- `AssemblyStore.InsertRowAt`: insert (with Python clamping), renumber via
the `xrange(index + 1, len(rows))` loop on the raw index, recompute offsets
and addresses.  For `index ≤ -(len + 3)` the loop's first wraparound access
raises `IndexError` and the exception escapes with the row already inserted
and nothing renumbered or recomputed; `Except.error` carries that state. -/
def InsertRowAt (s : AssemblyStore) (index : Int) (row : RowData) :
    Except AssemblyStore AssemblyStore :=
  if insOk s.rows.length index then
    match UpdateOffsetsAndAddresses { s with rows := insRows s index row } with
    | some s2 => Except.ok s2
    | none => Except.error { s with rows := insRows s index row }
  else
    Except.error { s with rows := pyInsert (pyInsertPos s.rows.length index) row s.rows }

/-- `AssemblyStore.DeleteRow`: pop the row (negative indices count from the
end; an out-of-range index raises before any mutation), renumber every row,
recompute.  `Except.error` carries the store state at the moment the
exception escapes. -/
def DeleteRow (s : AssemblyStore) (index : Int) : Except AssemblyStore AssemblyStore :=
  if pyIdxOk s.rows.length index then
    match UpdateOffsetsAndAddresses
        { s with rows := renumberFrom 0 (s.rows.eraseIdx (pyNormPos s.rows.length index)) } with
    | some s2 => Except.ok s2
    | none =>
      Except.error
        { s with rows := renumberFrom 0 (s.rows.eraseIdx (pyNormPos s.rows.length index)) }
  else Except.error s

/-- `AssemblyStore.UpdateRow`: replace the row at the given (possibly
negative) index, register a new non-empty label, recompute. -/
def UpdateRow (s : AssemblyStore) (i : Int) (new_row : RowData) : Option AssemblyStore :=
  if pyIdxOk s.rows.length i then
    let labels1 := if new_row.label ≠ "" ∧ new_row.label ∉ s.labels
                   then s.labels ++ [new_row.label] else s.labels
    UpdateOffsetsAndAddresses
      { s with rows := s.rows.set (pyNormPos s.rows.length i) new_row, labels := labels1 }
  else none

/-- `AssemblyStore.ReplaceLabel`: compare the leading tokens
(case-insensitively) and the per-character counts of `[ ] + - ,` between
the row's mnemonic and the decoded instruction text; on a mismatch set the
row's error flag and return the empty string, otherwise return the
upper-cased mnemonic.  `none` models the `IndexError` of `split()[0]` on a
tokenless string. -/
def ReplaceLabel (row : RowData) (inst : String) : Option (String × RowData) :=
  match pySplitW row.mnemonic.toList, pySplitW inst.toList with
  | rt :: _, it :: _ =>
    if rt.map Char.toLower ≠ it.map Char.toLower then
      some ("", { row with error := true })
    else if (['[', ']', '+', '-', ','].any
        (fun c => row.mnemonic.toList.count c ≠ inst.toList.count c)) then
      some ("", { row with error := true })
    else
      some (String.mk (row.mnemonic.toList.map Char.toUpper), row)
  | _, _ => none

/-! ## Derived notions used by the statements -/

/-- The row at position `k` (defaulting outside the range). -/
def rowAt (rows : List RowData) (k : Nat) : RowData :=
  rows.getD k default

/-- The number of bytes a row contributes to the running layout sum in the
loop of `UpdateOffsetsAndAddresses` (rows not in use contribute zero). -/
def inUseLen (r : RowData) : Nat :=
  if r.in_use then r.opcode.length else 0

/-- Total layout contribution of a list of rows. -/
def inUseSum (l : List RowData) : Nat :=
  (l.map inUseLen).sum

/-- Layout contribution of the rows at positions `a ≤ k < b`. -/
def inUseSeg (l : List RowData) (a b : Nat) : Nat :=
  (((l.map inUseLen).drop a).take (b - a)).sum

/-- `p` is the nearest in-use predecessor of position `i`. -/
def NearestInUsePred (rows : List RowData) (p i : Nat) : Prop :=
  p < i ∧ (rowAt rows p).in_use = true ∧
    ∀ q, p < q → q < i → (rowAt rows q).in_use = false

/-- A structural mutation of the store: the three operations the
recomputation invariant quantifies over. -/
inductive StoreOp where
  | ins (index : Int) (row : RowData)
  | del (index : Int)
  | upd (index : Int) (row : RowData)

/-- Run one operation, `none` meaning the operation raised. -/
def applyOp (s : AssemblyStore) : StoreOp → Option AssemblyStore
  | StoreOp.ins i r => (InsertRowAt s i r).toOption
  | StoreOp.del i => (DeleteRow s i).toOption
  | StoreOp.upd i r => UpdateRow s i r

/-- The row whose address/offset fields occupy position `k` just before the
final recomputation pass of the operation (used to state that rows not in
use keep their previous address/offset). -/
def originRow (s : AssemblyStore) : StoreOp → Nat → RowData
  | StoreOp.ins i r, k =>
    let pos := pyInsertPos s.rows.length i
    if k < pos then rowAt s.rows k
    else if k = pos then r
    else rowAt s.rows (k - 1)
  | StoreOp.del i, k =>
    let pos := pyNormPos s.rows.length i
    if k < pos then rowAt s.rows k else rowAt s.rows (k + 1)
  | StoreOp.upd i r, k =>
    let pos := pyNormPos s.rows.length i
    if k = pos then r else rowAt s.rows k

/-- The store handed to `UpdateOffsetsAndAddresses` by each operation
(after the structural edit, before the recomputation). -/
def opMid (s : AssemblyStore) : StoreOp → AssemblyStore
  | StoreOp.ins i r => { s with rows := insRows s i r }
  | StoreOp.del i =>
    { s with rows := renumberFrom 0 (s.rows.eraseIdx (pyNormPos s.rows.length i)) }
  | StoreOp.upd i r =>
    let labels1 := if r.label ≠ "" ∧ r.label ∉ s.labels
                   then s.labels ++ [r.label] else s.labels
    { s with rows := s.rows.set (pyNormPos s.rows.length i) r, labels := labels1 }

/-- A valid hex encoding in the sense of `binascii.unhexlify`: even length,
hex digits only. -/
def ValidHex (l : List Char) : Prop :=
  l.length % 2 = 0 ∧ ∀ c ∈ l, (hexVal? c).isSome = true

/-- The normalized mnemonic computed by `SetMnemonic`
(`mnemonic.lower().strip()`). -/
def normChars (m : String) : List Char :=
  pyStrip (m.toList.map Char.toLower)

/-! ## Reference model for row-copy isolation

`DeepCopyRow` hands callers a pickled copy of a stored row.  To state that
mutating the returned object cannot change store state, the rows are
modelled as references into an explicit heap: the store holds references,
`DeepCopyRow` allocates a fresh cell holding the same value, and a caller
mutation is an update of the heap at the returned reference. -/

/-- A heap of row objects; a reference is an index into it. -/
abbrev RowHeap : Type := List RowData

/-- Dereference (defaulting outside the heap). -/
def heapGet (h : RowHeap) (r : Nat) : RowData :=
  h.getD r default

/-- A caller-side mutation of the object behind reference `r`. -/
def heapSet (h : RowHeap) (r : Nat) (v : RowData) : RowHeap :=
  List.set h r v

/-- The store's identity-carrying view: `rowRefs` are the references the
store owns (`self.rows`). -/
structure RefStore where
  heap : RowHeap
  rowRefs : List Nat
  deriving DecidableEq, Repr

/-- Every stored reference points into the heap. -/
def RefStore.WF (s : RefStore) : Prop :=
  ∀ r ∈ s.rowRefs, r < s.heap.length

/-- `AssemblyStore.DeepCopyRow`: raises (`none`) outside the valid range,
otherwise allocates a detached copy of the stored row and returns the new
reference. -/
def RefStore.DeepCopyRow (s : RefStore) (index : Nat) : Option (Nat × RefStore) :=
  if index < s.rowRefs.length then
    let ref := s.rowRefs.getD index 0
    some (s.heap.length, { s with heap := s.heap ++ [heapGet s.heap ref] })
  else none

/-- `AssemblyStore.GetRow` delegates to `DeepCopyRow`. -/
def RefStore.GetRow (s : RefStore) (index : Nat) : Option (Nat × RefStore) :=
  s.DeepCopyRow index

/-- The loop of `GetRowsIterator`, yielding one deep copy per index. -/
def iterFrom : List Nat → RefStore → List Nat × RefStore
  | [], s => ([], s)
  | i :: rest, s =>
    match s.DeepCopyRow i with
    | some (r, s1) => (r :: (iterFrom rest s1).1, (iterFrom rest s1).2)
    | none => ([], s)

/-- `AssemblyStore.GetRowsIterator`: deep copies of all rows, in index
order, together with the heap state after all the allocations. -/
def RefStore.GetRowsIterator (s : RefStore) : List Nat × RefStore :=
  iterFrom (List.range s.rowRefs.length) s

/-! ## Concrete instances used by the closed statements -/

/-- A one-byte `NOP` row carrying index 0, in use. -/
def rowNop0 : RowData := mkRowData 0 "" 4096 [144] "NOP" "" 0 true

/-- A one-byte `NOP` row carrying index 1, in use. -/
def rowNop1 : RowData := mkRowData 0 "" 0 [144] "NOP" "" 1 true

/-- A not-in-use row at base address `0x1000` whose stored opcode value has
two bytes (as `SetOpcode` leaves behind on a failed decode). -/
def rowStale : RowData := mkRowData 0 "" 4096 [97, 98] "" "" 0 false

/-- A row built with index field 5. -/
def rowIdx5 : RowData := mkRowData 0 "" 0 [] "X" "" 5 false

/-- Counterexample state for the recomputation claim: make row 0 a
not-in-use row with a two-byte stale opcode, then make row 1 an in-use
one-byte row. -/
def c1State : Option AssemblyStore :=
  (UpdateRow initStore 0 rowStale).bind (fun s => UpdateRow s 1 rowNop1)

/-- The store after inserting an in-use `NOP` row at position 0. -/
def c1WitnessState : AssemblyStore :=
  (applyOp initStore (StoreOp.ins 0 rowNop0)).getD initStore

/-- The store after inserting, at position 0, a row built with index 5. -/
def c3State : Option AssemblyStore :=
  (InsertRowAt initStore 0 rowIdx5).toOption

/-- The store after inserting at the out-of-range index 100 (the store has
20 rows). -/
def c4State : Option AssemblyStore :=
  (InsertRowAt initStore 100 rowNop0).toOption

/-- A store holding exactly one row. -/
def oneRowStore : AssemblyStore :=
  { initStore with rows := [rowNop0] }

/-- A label-bearing row whose mnemonic is `JMP [ebx+4]`. -/
def jmpRow : RowData := mkRowData 0 "" 0 [] "JMP [ebx+4]" "" 0 true

/-- A two-row reference store for the copy-isolation witness. -/
def refStore2 : RefStore :=
  { heap := [rowNop0, rowNop1], rowRefs := [0, 1] }

/-- The reference store after `GetRow 0` allocated the copy at cell 2. -/
def refStore2Copy : RefStore :=
  { heap := [rowNop0, rowNop1, rowNop0], rowRefs := [0, 1] }

/-- A blank placeholder row. -/
def baseRow : RowData := mkRowData 0 "" 0 [] "" "" 0 false

/-- The store after deleting row 0 of the initial store. -/
def delState : AssemblyStore :=
  ((DeleteRow initStore 0).toOption).getD initStore

/-- The row produced by `SetMnemonic "db 1,2,3"`. -/
def c2Row : RowData :=
  (RowData.SetMnemonic baseRow "db 1,2,3").toOption.getD baseRow

/-- The row produced by `SetMnemonic "calls eax"`. -/
def c9Row : RowData :=
  (RowData.SetMnemonic baseRow "calls eax").toOption.getD baseRow

/-! # Lemmas -/

/-! ## Basic `rowAt` facts -/

theorem rowAt_cons_zero (r : RowData) (rs : List RowData) : rowAt (r :: rs) 0 = r :=
  List.getD_cons_zero

theorem rowAt_cons_succ (r : RowData) (rs : List RowData) (k : Nat) :
    rowAt (r :: rs) (k + 1) = rowAt rs k :=
  List.getD_cons_succ

theorem rowAt_eq_getElem (rows : List RowData) (k : Nat) (h : k < rows.length) :
    rowAt rows k = rows[k] :=
  List.getD_eq_getElem rows default h

/-! ## The recomputation loop -/

theorem updateRows_length (addr : Int) (off : Nat) (l : List RowData) :
    (updateRows addr off l).length = l.length := by
  induction l generalizing addr off with
  | nil => rfl
  | cons r rs ih =>
    by_cases h : r.in_use <;> simp [updateRows, h, ih]

theorem inUseSum_take_cons (r : RowData) (rs : List RowData) (k : Nat) :
    inUseSum ((r :: rs).take (k + 1)) = inUseLen r + inUseSum (rs.take k) := by
  simp [inUseSum, List.take_succ_cons]

theorem updateRows_rowAt (l : List RowData) :
    ∀ (addr : Int) (off k : Nat), k < l.length →
    ((rowAt l k).in_use = false →
      rowAt (updateRows addr off l) k = rowAt l k) ∧
    ((rowAt l k).in_use = true →
      rowAt (updateRows addr off l) k =
        { rowAt l k with
          address := addr + (inUseSum (l.take k) : Int)
          offset := off + inUseSum (l.take k) }) := by
  induction l with
  | nil => intro addr off k hk; simp at hk
  | cons r rs ih =>
    intro addr off k hk
    match k with
    | 0 =>
      cases hr : r.in_use with
      | false =>
        constructor
        · intro _
          simp [updateRows, hr, rowAt_cons_zero]
        · intro htrue
          rw [rowAt_cons_zero] at htrue
          rw [htrue] at hr
          exact absurd hr (by simp)
      | true =>
        constructor
        · intro hfalse
          rw [rowAt_cons_zero] at hfalse
          rw [hfalse] at hr
          exact absurd hr (by simp)
        · intro _
          simp [updateRows, hr, rowAt_cons_zero, inUseSum, List.take_zero]
    | k + 1 =>
      have hk' : k < rs.length := by simpa using hk
      cases hr : r.in_use with
      | true =>
        have := ih (addr + (r.opcode.length : Int)) (off + r.opcode.length) k hk'
        constructor
        · intro hfalse
          rw [rowAt_cons_succ] at hfalse
          simp only [updateRows, hr, if_true, rowAt_cons_succ]
          exact this.1 hfalse
        · intro htrue
          rw [rowAt_cons_succ] at htrue
          simp only [updateRows, hr, if_true, rowAt_cons_succ]
          rw [this.2 htrue, inUseSum_take_cons]
          have hlen : inUseLen r = r.opcode.length := by simp [inUseLen, hr]
          rw [hlen]
          have h1 : off + r.opcode.length + inUseSum (rs.take k) =
              off + (r.opcode.length + inUseSum (rs.take k)) := by omega
          have h2 : addr + (r.opcode.length : Int) + (inUseSum (rs.take k) : Int) =
              addr + ((r.opcode.length + inUseSum (rs.take k) : Nat) : Int) := by
            push_cast; ring
          rw [h1, h2]
      | false =>
        have := ih addr off k hk'
        constructor
        · intro hfalse
          rw [rowAt_cons_succ] at hfalse
          simp only [updateRows, hr, Bool.false_eq_true, if_false, rowAt_cons_succ]
          exact this.1 hfalse
        · intro htrue
          rw [rowAt_cons_succ] at htrue
          simp only [updateRows, hr, Bool.false_eq_true, if_false, rowAt_cons_succ]
          rw [this.2 htrue, inUseSum_take_cons]
          have hlen : inUseLen r = 0 := by simp [inUseLen, hr]
          rw [hlen, Nat.zero_add]

theorem inUseSeg_cons (r0 : RowData) (rest : List RowData) (j : Nat) :
    inUseSeg (r0 :: rest) 1 (j + 1) = inUseSum (rest.take j) := by
  simp [inUseSeg, inUseSum, List.map_take]

theorem inUseSeg_congr (l₁ l₂ : List RowData) (hlen : l₁.length = l₂.length)
    (h : ∀ k, k < l₁.length → inUseLen (rowAt l₁ k) = inUseLen (rowAt l₂ k))
    (a b : Nat) : inUseSeg l₁ a b = inUseSeg l₂ a b := by
  have hm : l₁.map inUseLen = l₂.map inUseLen := by
    apply List.ext_getElem (by simp [hlen])
    intro n h₁ h₂
    simp only [List.getElem_map]
    have e₁ : n < l₁.length := by simpa using h₁
    have e₂ : n < l₂.length := by simpa using h₂
    rw [← rowAt_eq_getElem _ _ e₁, ← rowAt_eq_getElem _ _ e₂]
    exact h n e₁
  simp [inUseSeg, hm]

/-- `UpdateOffsetsAndAddresses` succeeds exactly on a non-empty store. -/
theorem updateOA_isSome (s : AssemblyStore) (h : s.rows ≠ []) :
    ∃ t, UpdateOffsetsAndAddresses s = some t := by
  cases hrows : s.rows with
  | nil => exact absurd hrows h
  | cons r0 rest => exact ⟨_, by rw [UpdateOffsetsAndAddresses, hrows]⟩

/-- Full description of the recomputation pass: row 0 is anchored at
offset 0 with its address untouched; every later row not in use is left
entirely unchanged; every later row in use receives the cumulative
address/offset in which row 0's opcode length always participates and
later rows contribute `inUseLen`. -/
theorem updateOA_spec (s t : AssemblyStore)
    (h : UpdateOffsetsAndAddresses s = some t) :
    t.rows.length = s.rows.length ∧ 0 < s.rows.length ∧
    t.labels = s.labels ∧
    rowAt t.rows 0 = { rowAt s.rows 0 with offset := 0 } ∧
    ∀ k, 0 < k → k < s.rows.length →
      ((rowAt s.rows k).in_use = false → rowAt t.rows k = rowAt s.rows k) ∧
      ((rowAt s.rows k).in_use = true → rowAt t.rows k =
        { rowAt s.rows k with
          address := (rowAt s.rows 0).address + ((rowAt s.rows 0).opcode.length : Int) +
            (inUseSeg s.rows 1 k : Int)
          offset := (rowAt s.rows 0).opcode.length + inUseSeg s.rows 1 k }) := by
  cases hrows : s.rows with
  | nil => rw [UpdateOffsetsAndAddresses, hrows] at h; exact absurd h (by simp)
  | cons r0 rest =>
    rw [UpdateOffsetsAndAddresses, hrows] at h
    injection h with h
    have hrowsT : t.rows =
        { r0 with offset := 0 } ::
          updateRows (r0.address + (r0.opcode.length : Int)) r0.opcode.length rest := by
      rw [← h]
    have hlab : t.labels = s.labels := by rw [← h]
    refine ⟨?_, by simp, hlab, ?_, ?_⟩
    · rw [hrowsT]; simp [updateRows_length]
    · rw [hrowsT, rowAt_cons_zero, rowAt_cons_zero]
    · intro k hk0 hklen
      match k, hk0 with
      | j + 1, _ =>
        have hj : j < rest.length := by simpa using hklen
        have hu := updateRows_rowAt rest (r0.address + (r0.opcode.length : Int))
          r0.opcode.length j hj
        constructor
        · intro hfalse
          rw [rowAt_cons_succ] at hfalse
          rw [hrowsT, rowAt_cons_succ, rowAt_cons_succ]
          exact hu.1 hfalse
        · intro htrue
          rw [rowAt_cons_succ] at htrue
          rw [hrowsT, rowAt_cons_succ, rowAt_cons_succ, rowAt_cons_zero,
            inUseSeg_cons, hu.2 htrue]

/-- The recomputation pass does not change the `in_use`, `opcode`, `index`
or `mnemonic` fields of any row. -/
theorem updateOA_preserves (s t : AssemblyStore)
    (h : UpdateOffsetsAndAddresses s = some t) :
    ∀ k, k < s.rows.length →
      (rowAt t.rows k).in_use = (rowAt s.rows k).in_use ∧
      (rowAt t.rows k).opcode = (rowAt s.rows k).opcode ∧
      (rowAt t.rows k).index = (rowAt s.rows k).index ∧
      (rowAt t.rows k).mnemonic = (rowAt s.rows k).mnemonic := by
  obtain ⟨-, -, -, h0, hk⟩ := updateOA_spec s t h
  intro k hklen
  match k with
  | 0 => rw [h0]; exact ⟨rfl, rfl, rfl, rfl⟩
  | j + 1 =>
    cases hu : (rowAt s.rows (j + 1)).in_use with
    | false => rw [(hk (j + 1) (by omega) hklen).1 hu]; exact ⟨hu, rfl, rfl, rfl⟩
    | true => rw [(hk (j + 1) (by omega) hklen).2 hu]; exact ⟨hu, rfl, rfl, rfl⟩

/-! ## Structural edits -/

theorem pyInsert_length (pos : Nat) (x : RowData) (l : List RowData) :
    (pyInsert pos x l).length = l.length + 1 := by
  induction l generalizing pos with
  | nil => cases pos <;> rfl
  | cons y ys ih =>
    cases pos with
    | zero => rfl
    | succ p => simp [pyInsert, ih]

theorem pyInsert_rowAt_lt (pos : Nat) (x : RowData) (l : List RowData)
    (hpos : pos ≤ l.length) :
    ∀ k, k < pos → rowAt (pyInsert pos x l) k = rowAt l k := by
  induction l generalizing pos with
  | nil =>
    intro k hk
    have : pos = 0 := by simpa using hpos
    omega
  | cons y ys ih =>
    intro k hk
    cases pos with
    | zero => omega
    | succ p =>
      match k with
      | 0 => rfl
      | k + 1 =>
        show rowAt (y :: pyInsert p x ys) (k + 1) = rowAt (y :: ys) (k + 1)
        rw [rowAt_cons_succ, rowAt_cons_succ]
        exact ih p (by simpa using hpos) k (by omega)

theorem pyInsert_rowAt_self (pos : Nat) (x : RowData) (l : List RowData)
    (h : pos ≤ l.length) : rowAt (pyInsert pos x l) pos = x := by
  induction l generalizing pos with
  | nil =>
    have : pos = 0 := by simpa using h
    subst this; rfl
  | cons y ys ih =>
    cases pos with
    | zero => rfl
    | succ p =>
      show rowAt (y :: pyInsert p x ys) (p + 1) = x
      rw [rowAt_cons_succ]
      exact ih p (by simpa using h)

theorem pyInsert_rowAt_gt (pos : Nat) (x : RowData) (l : List RowData) :
    ∀ k, pos < k → rowAt (pyInsert pos x l) k = rowAt l (k - 1) := by
  induction l generalizing pos with
  | nil =>
    intro k hk
    cases pos with
    | zero =>
      match k, hk with
      | k + 1, _ => show rowAt [x] (k + 1) = rowAt [] k; simp [rowAt]
    | succ p =>
      match k, hk with
      | k + 1, _ =>
        show rowAt [x] (k + 1) = rowAt [] k
        simp [rowAt]
  | cons y ys ih =>
    intro k hk
    cases pos with
    | zero =>
      match k, hk with
      | k + 1, _ =>
        show rowAt (x :: y :: ys) (k + 1) = rowAt (y :: ys) k
        rw [rowAt_cons_succ]
    | succ p =>
      match k, hk with
      | k + 1, _ =>
        show rowAt (y :: pyInsert p x ys) (k + 1) = rowAt (y :: ys) k
        rw [rowAt_cons_succ, ih p k (by omega)]
        match k, hk with
        | k + 1, _ => rw [rowAt_cons_succ]; simp

theorem renumberAux_length (start : Nat) (l : List RowData) :
    ∀ base, (renumberAux start base l).length = l.length := by
  induction l with
  | nil => intro base; rfl
  | cons r rs ih => intro base; simp [renumberAux, ih]

theorem renumberAux_rowAt (start : Nat) (l : List RowData) :
    ∀ base k, k < l.length →
      rowAt (renumberAux start base l) k =
        (if start ≤ base + k then { rowAt l k with index := base + k }
         else rowAt l k) := by
  induction l with
  | nil => intro base k hk; simp at hk
  | cons r rs ih =>
    intro base k hk
    match k with
    | 0 =>
      by_cases h : start ≤ base
      · simp [renumberAux, h, rowAt_cons_zero]
      · simp [renumberAux, h, rowAt_cons_zero]
    | k + 1 =>
      have hk' : k < rs.length := by simpa using hk
      have e : base + (k + 1) = (base + 1) + k := by omega
      rw [show renumberAux start base (r :: rs) =
          (if start ≤ base then { r with index := base } else r) ::
            renumberAux start (base + 1) rs from rfl,
        rowAt_cons_succ, rowAt_cons_succ, ih (base + 1) k hk', e]

theorem renumberFrom_length (start : Nat) (l : List RowData) :
    (renumberFrom start l).length = l.length :=
  renumberAux_length start l 0

theorem renumberFrom_rowAt (start : Nat) (l : List RowData) (k : Nat)
    (hk : k < l.length) :
    rowAt (renumberFrom start l) k =
      (if start ≤ k then { rowAt l k with index := k } else rowAt l k) := by
  have := renumberAux_rowAt start l 0 k hk
  simpa [renumberFrom] using this

theorem eraseIdx_rowAt_lt (l : List RowData) :
    ∀ pos k, k < pos → pos < l.length → rowAt (l.eraseIdx pos) k = rowAt l k := by
  induction l with
  | nil => intro pos k _ h; simp at h
  | cons r rs ih =>
    intro pos k hk hpos
    cases pos with
    | zero => omega
    | succ p =>
      match k with
      | 0 => rfl
      | k + 1 =>
        show rowAt (r :: rs.eraseIdx p) (k + 1) = rowAt (r :: rs) (k + 1)
        rw [rowAt_cons_succ, rowAt_cons_succ]
        exact ih p k (by omega) (by simpa using hpos)

theorem eraseIdx_rowAt_ge (l : List RowData) :
    ∀ pos k, pos ≤ k → pos < l.length → rowAt (l.eraseIdx pos) k = rowAt l (k + 1) := by
  induction l with
  | nil => intro pos k _ h; simp at h
  | cons r rs ih =>
    intro pos k hk hpos
    cases pos with
    | zero =>
      show rowAt rs k = rowAt (r :: rs) (k + 1)
      rw [rowAt_cons_succ]
    | succ p =>
      match k, hk with
      | k + 1, _ =>
        show rowAt (r :: rs.eraseIdx p) (k + 1) = rowAt (r :: rs) (k + 2)
        rw [rowAt_cons_succ, rowAt_cons_succ]
        exact ih p k (by omega) (by simpa using hpos)

theorem set_rowAt_self (l : List RowData) (pos : Nat) (x : RowData)
    (h : pos < l.length) : rowAt (l.set pos x) pos = x := by
  unfold rowAt
  rw [List.getD_eq_getElem?_getD, List.getElem?_set_self (by simpa using h)]
  rfl

theorem set_rowAt_ne (l : List RowData) (pos k : Nat) (x : RowData)
    (h : k ≠ pos) : rowAt (l.set pos x) k = rowAt l k := by
  unfold rowAt
  rw [List.getD_eq_getElem?_getD, List.getElem?_set_ne (by omega),
    ← List.getD_eq_getElem?_getD]

/-! ## Operations and the recomputation pass -/

theorem pyInsertPos_le (len : Nat) (i : Int) : pyInsertPos len i ≤ len := by
  unfold pyInsertPos
  split <;> omega

theorem pyNormPos_lt (n : Nat) (i : Int) (h : pyIdxOk n i) : pyNormPos n i < n := by
  unfold pyIdxOk at h
  unfold pyNormPos
  split <;> omega

theorem insStart_nonneg (i : Int) (h : 0 ≤ i) : insStart i = i.toNat + 1 := by
  unfold insStart
  rw [if_pos h]
  omega

theorem insStart_neg (i : Int) (h : i < 0) : insStart i = 0 := by
  unfold insStart
  rw [if_neg (by omega)]

theorem pyInsertPos_le_toNat (len : Nat) (i : Int) (h : 0 ≤ i) :
    pyInsertPos len i ≤ i.toNat := by
  unfold pyInsertPos
  rw [if_neg (by omega)]
  exact Nat.min_le_left _ _

theorem pyInsertPos_big (len : Nat) (i : Int) (h : (len : Int) ≤ i) :
    pyInsertPos len i = len := by
  unfold pyInsertPos
  rw [if_neg (by omega), Nat.min_def]
  split <;> omega

theorem pyInsertPos_small (len : Nat) (i : Int) (h : i + (len : Int) ≤ 0) :
    pyInsertPos len i = 0 := by
  unfold pyInsertPos
  by_cases hi : i < 0
  · rw [if_pos hi]
    omega
  · rw [if_neg hi]
    have h0 : i = 0 ∧ len = 0 := by omega
    rw [h0.1, h0.2]
    rfl

theorem renumberAux_ge (start : Nat) :
    ∀ (l : List RowData) (base : Nat), base + l.length ≤ start →
      renumberAux start base l = l := by
  intro l
  induction l with
  | nil => intro base _; rfl
  | cons r rs ih =>
    intro base hb
    show (if start ≤ base then { r with index := base } else r) ::
        renumberAux start (base + 1) rs = r :: rs
    rw [if_neg (by simp at hb; omega), ih (base + 1) (by simp at hb; omega)]

theorem renumberFrom_ge (start : Nat) (l : List RowData) (h : l.length ≤ start) :
    renumberFrom start l = l :=
  renumberAux_ge start l 0 (by omega)

theorem insRows_length (s : AssemblyStore) (i : Int) (r : RowData) :
    (insRows s i r).length = s.rows.length + 1 := by
  rw [insRows, renumberFrom_length, pyInsert_length]

/-- A completed `InsertRowAt` passed its renumber-loop range condition and
its result is the recomputation of the structurally edited store. -/
theorem insertRowAt_ok (s s' : AssemblyStore) (i : Int) (r : RowData)
    (h : InsertRowAt s i r = Except.ok s') :
    insOk s.rows.length i ∧
    UpdateOffsetsAndAddresses { s with rows := insRows s i r } = some s' := by
  by_cases hv : insOk s.rows.length i
  · refine ⟨hv, ?_⟩
    rw [InsertRowAt, if_pos hv] at h
    cases hOA : UpdateOffsetsAndAddresses { s with rows := insRows s i r } with
    | none => rw [hOA] at h; exact absurd h (by simp)
    | some s2 => rw [hOA] at h; injection h with h; rw [h]
  · rw [InsertRowAt, if_neg hv] at h
    exact absurd h (by simp)

/-- Whether the operation completes without raising: deletes and updates
need a valid Python index, inserts need the renumber loop's first access in
range. -/
def opValid (s : AssemblyStore) : StoreOp → Prop
  | StoreOp.ins i _ => insOk s.rows.length i
  | StoreOp.del i => pyIdxOk s.rows.length i
  | StoreOp.upd i _ => pyIdxOk s.rows.length i

/-- The row count after the structural edit. -/
def opLen (s : AssemblyStore) : StoreOp → Nat
  | StoreOp.ins _ _ => s.rows.length + 1
  | StoreOp.del _ => s.rows.length - 1
  | StoreOp.upd _ _ => s.rows.length

theorem opMid_length (s : AssemblyStore) (op : StoreOp) (hv : opValid s op) :
    (opMid s op).rows.length = opLen s op := by
  cases op with
  | ins i r =>
    simp [opMid, opLen, insRows_length]
  | del i =>
    have hlt := pyNormPos_lt s.rows.length i hv
    simp [opMid, opLen, renumberFrom_length, List.length_eraseIdx, hlt]
  | upd i r =>
    simp [opMid, opLen, renumberFrom_length]

theorem opMid_rowAt (s : AssemblyStore) (op : StoreOp) (k : Nat)
    (hv : opValid s op) (hk : k < opLen s op) :
    (rowAt (opMid s op).rows k).address = (originRow s op k).address ∧
    (rowAt (opMid s op).rows k).offset = (originRow s op k).offset ∧
    (rowAt (opMid s op).rows k).in_use = (originRow s op k).in_use ∧
    (rowAt (opMid s op).rows k).opcode = (originRow s op k).opcode := by
  cases op with
  | ins i r =>
    have hmid : (opMid s (StoreOp.ins i r)).rows =
        renumberFrom (insStart i)
          (pyInsert (pyInsertPos s.rows.length i) r s.rows) := rfl
    have horig : originRow s (StoreOp.ins i r) k =
        (if k < pyInsertPos s.rows.length i then rowAt s.rows k
         else if k = pyInsertPos s.rows.length i then r
         else rowAt s.rows (k - 1)) := rfl
    have hklen : k < s.rows.length + 1 := hk
    rw [hmid, horig]
    set pos := pyInsertPos s.rows.length i with hposdef
    have hpos : pos ≤ s.rows.length := pyInsertPos_le s.rows.length i
    have hk' : k < (pyInsert pos r s.rows).length := by
      rw [pyInsert_length]; exact hklen
    have hr := renumberFrom_rowAt (insStart i) (pyInsert pos r s.rows) k hk'
    have hfields :
        (rowAt (renumberFrom (insStart i) (pyInsert pos r s.rows)) k).address =
          (rowAt (pyInsert pos r s.rows) k).address ∧
        (rowAt (renumberFrom (insStart i) (pyInsert pos r s.rows)) k).offset =
          (rowAt (pyInsert pos r s.rows) k).offset ∧
        (rowAt (renumberFrom (insStart i) (pyInsert pos r s.rows)) k).in_use =
          (rowAt (pyInsert pos r s.rows) k).in_use ∧
        (rowAt (renumberFrom (insStart i) (pyInsert pos r s.rows)) k).opcode =
          (rowAt (pyInsert pos r s.rows) k).opcode := by
      rw [hr]
      split <;> exact ⟨rfl, rfl, rfl, rfl⟩
    obtain ⟨ha, ho, hu, hc⟩ := hfields
    rw [ha, ho, hu, hc]
    rcases Nat.lt_trichotomy k pos with hlt | heq | hgt
    · rw [pyInsert_rowAt_lt pos r s.rows hpos k hlt, if_pos hlt]
      exact ⟨rfl, rfl, rfl, rfl⟩
    · rw [heq, pyInsert_rowAt_self pos r s.rows hpos, if_neg (by omega), if_pos rfl]
      exact ⟨rfl, rfl, rfl, rfl⟩
    · rw [pyInsert_rowAt_gt pos r s.rows k hgt, if_neg (by omega),
        if_neg (by omega)]
      exact ⟨rfl, rfl, rfl, rfl⟩
  | del i =>
    have hmid : (opMid s (StoreOp.del i)).rows =
        renumberFrom 0 (s.rows.eraseIdx (pyNormPos s.rows.length i)) := rfl
    have horig : originRow s (StoreOp.del i) k =
        (if k < pyNormPos s.rows.length i then rowAt s.rows k
         else rowAt s.rows (k + 1)) := rfl
    have hklen : k < s.rows.length - 1 := hk
    rw [hmid, horig]
    set pos := pyNormPos s.rows.length i with hposdef
    have hlt : pos < s.rows.length := pyNormPos_lt s.rows.length i hv
    have hk' : k < (s.rows.eraseIdx pos).length := by
      rw [List.length_eraseIdx]
      simp only [hlt, if_true]
      exact hklen
    have hr := renumberFrom_rowAt 0 (s.rows.eraseIdx pos) k hk'
    have hz : (0 : Nat) ≤ k := Nat.zero_le k
    rw [hr]
    simp only [hz, if_true]
    rcases Nat.lt_or_ge k pos with hklt | hkge
    · rw [eraseIdx_rowAt_lt s.rows pos k hklt hlt, if_pos hklt]
      exact ⟨rfl, rfl, rfl, rfl⟩
    · rw [eraseIdx_rowAt_ge s.rows pos k hkge hlt, if_neg (by omega)]
      exact ⟨rfl, rfl, rfl, rfl⟩
  | upd i r =>
    have hmid : (opMid s (StoreOp.upd i r)).rows =
        s.rows.set (pyNormPos s.rows.length i) r := rfl
    have horig : originRow s (StoreOp.upd i r) k =
        (if k = pyNormPos s.rows.length i then r else rowAt s.rows k) := rfl
    rw [hmid, horig]
    set pos := pyNormPos s.rows.length i with hposdef
    have hlt : pos < s.rows.length := pyNormPos_lt s.rows.length i hv
    by_cases heq : k = pos
    · rw [heq, set_rowAt_self s.rows pos r hlt, if_pos rfl]
      exact ⟨rfl, rfl, rfl, rfl⟩
    · rw [set_rowAt_ne s.rows pos k r heq, if_neg heq]
      exact ⟨rfl, rfl, rfl, rfl⟩

theorem applyOp_eq (s s' : AssemblyStore) (op : StoreOp)
    (h : applyOp s op = some s') :
    UpdateOffsetsAndAddresses (opMid s op) = some s' ∧ opValid s op := by
  cases op with
  | ins i r =>
    by_cases hv : insOk s.rows.length i
    · refine ⟨?_, hv⟩
      have hdef : applyOp s (StoreOp.ins i r) =
          (match UpdateOffsetsAndAddresses (opMid s (StoreOp.ins i r)) with
           | some s2 => Except.ok s2
           | none => Except.error (opMid s (StoreOp.ins i r))).toOption := by
        show (InsertRowAt s i r).toOption = _
        rw [InsertRowAt, if_pos hv]
        rfl
      rw [hdef] at h
      cases hOA : UpdateOffsetsAndAddresses (opMid s (StoreOp.ins i r)) with
      | none => rw [hOA] at h; simp [Except.toOption] at h
      | some s2 =>
        rw [hOA] at h
        simp [Except.toOption] at h
        rw [h]
    · rw [show applyOp s (StoreOp.ins i r) = (InsertRowAt s i r).toOption from rfl,
        InsertRowAt, if_neg hv] at h
      simp [Except.toOption] at h
  | del i =>
    by_cases hv : pyIdxOk s.rows.length i
    · refine ⟨?_, hv⟩
      have hdef : applyOp s (StoreOp.del i) =
          (match UpdateOffsetsAndAddresses (opMid s (StoreOp.del i)) with
           | some s2 => Except.ok s2
           | none => Except.error (opMid s (StoreOp.del i))).toOption := by
        show (DeleteRow s i).toOption = _
        rw [DeleteRow, if_pos hv]
        rfl
      rw [hdef] at h
      cases hOA : UpdateOffsetsAndAddresses (opMid s (StoreOp.del i)) with
      | none => rw [hOA] at h; simp [Except.toOption] at h
      | some s2 =>
        rw [hOA] at h
        simp [Except.toOption] at h
        rw [h]
    · rw [show applyOp s (StoreOp.del i) = (DeleteRow s i).toOption from rfl,
        DeleteRow, if_neg hv] at h
      simp [Except.toOption] at h
  | upd i r =>
    by_cases hv : pyIdxOk s.rows.length i
    · refine ⟨?_, hv⟩
      rw [show applyOp s (StoreOp.upd i r) = UpdateRow s i r from rfl, UpdateRow,
        if_pos hv] at h
      exact h
    · rw [show applyOp s (StoreOp.upd i r) = UpdateRow s i r from rfl, UpdateRow,
        if_neg hv] at h
      simp at h

/-! ## Segment sums -/

theorem inUseSeg_refl (l : List RowData) (a : Nat) : inUseSeg l a a = 0 := by
  simp [inUseSeg]

theorem inUseSeg_succ (l : List RowData) (a b : Nat) (hab : a ≤ b)
    (hb : b < l.length) :
    inUseSeg l a (b + 1) = inUseSeg l a b + inUseLen (rowAt l b) := by
  unfold inUseSeg
  have e1 : b + 1 - a = (b - a) + 1 := by omega
  rw [e1, List.take_succ]
  have e2 : ((l.map inUseLen).drop a)[b - a]? = some (inUseLen (rowAt l b)) := by
    rw [List.getElem?_drop, show a + (b - a) = b by omega, List.getElem?_map,
      List.getElem?_eq_getElem (by simpa using hb)]
    simp [rowAt_eq_getElem l b hb]
  rw [e2]
  simp

theorem inUseSeg_zeros (l : List RowData) (a c : Nat) :
    ∀ b, a ≤ c → c ≤ b → b ≤ l.length →
      (∀ q, c ≤ q → q < b → (rowAt l q).in_use = false) →
      inUseSeg l a b = inUseSeg l a c := by
  intro b
  induction b with
  | zero =>
    intro _ hcb _ _
    have : c = 0 := by omega
    rw [this]
  | succ n ih =>
    intro hac hcb hb hz
    by_cases hcn : c = n + 1
    · rw [hcn]
    · have hcn' : c ≤ n := by omega
      rw [inUseSeg_succ l a n (by omega) (by omega)]
      have hz0 : inUseLen (rowAt l n) = 0 := by
        rw [inUseLen, hz n hcn' (by omega)]
        simp
      rw [hz0, Nat.add_zero]
      exact ih hac hcn' (by omega) (fun q hq1 hq2 => hz q hq1 (by omega))

/-! ## Claim C1: the recomputation invariant -/

/-- C1 (amended): after every insert/delete/update operation that completes,
row 0 is the anchor (offset 0, address untouched); every row `i > 0` not in
use keeps the address/offset it had going into the recomputation pass; every
in-use row `i > 0` has
`offset i = len(opcode 0) + Σ inUseLen` over rows `1..i-1` — row 0's opcode
length always contributes, whether or not row 0 is in use — and
`address i = address 0 + len(opcode 0) + Σ inUseLen`; consequently, for
every in-use row `i` whose nearest in-use predecessor is `p`,
`address i = address p + len(opcode p)`. -/
theorem recomputation_invariant_after_op (s s' : AssemblyStore) (op : StoreOp)
    (h : applyOp s op = some s') :
    0 < s'.rows.length ∧
    (rowAt s'.rows 0).offset = 0 ∧
    (rowAt s'.rows 0).address = (originRow s op 0).address ∧
    (∀ k, 0 < k → k < s'.rows.length → (rowAt s'.rows k).in_use = false →
      (rowAt s'.rows k).address = (originRow s op k).address ∧
      (rowAt s'.rows k).offset = (originRow s op k).offset) ∧
    (∀ j, 0 < j → j < s'.rows.length → (rowAt s'.rows j).in_use = true →
      (rowAt s'.rows j).offset =
        (rowAt s'.rows 0).opcode.length + inUseSeg s'.rows 1 j ∧
      (rowAt s'.rows j).address = (rowAt s'.rows 0).address +
        ((rowAt s'.rows 0).opcode.length : Int) + (inUseSeg s'.rows 1 j : Int)) ∧
    (∀ j p, j < s'.rows.length → (rowAt s'.rows j).in_use = true →
      NearestInUsePred s'.rows p j →
      (rowAt s'.rows j).address = (rowAt s'.rows p).address +
        ((rowAt s'.rows p).opcode.length : Int)) := by
  obtain ⟨hOA, hv⟩ := applyOp_eq s s' op h
  obtain ⟨hlen, hpos, hlab, h0, hrest⟩ := updateOA_spec (opMid s op) s' hOA
  have hpres := updateOA_preserves (opMid s op) s' hOA
  have hmlen := opMid_length s op hv
  have hlen' : s'.rows.length = (opMid s op).rows.length := hlen
  have hpos' : 0 < s'.rows.length := by rw [hlen']; exact hpos
  have c2 : (rowAt s'.rows 0).offset = 0 := by rw [h0]
  have c3 : (rowAt s'.rows 0).address = (originRow s op 0).address := by
    have hm := opMid_rowAt s op 0 hv (by rw [← hmlen]; exact hpos)
    rw [h0]
    exact hm.1
  have c4 : ∀ k, 0 < k → k < s'.rows.length → (rowAt s'.rows k).in_use = false →
      (rowAt s'.rows k).address = (originRow s op k).address ∧
      (rowAt s'.rows k).offset = (originRow s op k).offset := by
    intro k hk0 hkl hkuse
    have hklm : k < (opMid s op).rows.length := by rw [← hlen']; exact hkl
    have hkuse_mid : (rowAt (opMid s op).rows k).in_use = false := by
      rw [← (hpres k hklm).1]; exact hkuse
    have heq := (hrest k hk0 hklm).1 hkuse_mid
    have hm := opMid_rowAt s op k hv (by rw [← hmlen]; exact hklm)
    exact ⟨by rw [heq]; exact hm.1, by rw [heq]; exact hm.2.1⟩
  have c5 : ∀ j, 0 < j → j < s'.rows.length → (rowAt s'.rows j).in_use = true →
      (rowAt s'.rows j).offset =
        (rowAt s'.rows 0).opcode.length + inUseSeg s'.rows 1 j ∧
      (rowAt s'.rows j).address = (rowAt s'.rows 0).address +
        ((rowAt s'.rows 0).opcode.length : Int) + (inUseSeg s'.rows 1 j : Int) := by
    intro j hj0 hjl hjuse
    have hjlm : j < (opMid s op).rows.length := by rw [← hlen']; exact hjl
    have hjuse_mid : (rowAt (opMid s op).rows j).in_use = true := by
      rw [← (hpres j hjlm).1]; exact hjuse
    have heq := (hrest j hj0 hjlm).2 hjuse_mid
    have hseg : inUseSeg (opMid s op).rows 1 j = inUseSeg s'.rows 1 j := by
      apply inUseSeg_congr
      · rw [hlen']
      · intro k hkm
        have h1 := (hpres k hkm).1
        have h2 := (hpres k hkm).2.1
        unfold inUseLen
        rw [h1, h2]
    have h0op : (rowAt s'.rows 0).opcode = (rowAt (opMid s op).rows 0).opcode := by
      rw [h0]
    have h0ad : (rowAt s'.rows 0).address = (rowAt (opMid s op).rows 0).address := by
      rw [h0]
    constructor
    · rw [heq, h0op, ← hseg]
    · rw [heq, h0ad, h0op, ← hseg]
  refine ⟨hpos', c2, c3, c4, c5, ?_⟩
  intro j p hjl hjuse hnp
  obtain ⟨hpj, hpuse, hz⟩ := hnp
  have hj0 : 0 < j := Nat.lt_of_le_of_lt (Nat.zero_le p) hpj
  obtain ⟨hoj, haj⟩ := c5 j hj0 hjl hjuse
  by_cases hp0 : p = 0
  · subst hp0
    have hseg0 : inUseSeg s'.rows 1 j = 0 := by
      rw [inUseSeg_zeros s'.rows 1 1 j (le_refl 1) (by omega) (le_of_lt hjl)
        (fun q hq1 hq2 => hz q (by omega) hq2)]
      exact inUseSeg_refl s'.rows 1
    rw [haj, hseg0]
    simp
  · have hp1 : 1 ≤ p := by omega
    have hpl : p < s'.rows.length := by omega
    obtain ⟨hop, hap⟩ := c5 p (by omega) hpl hpuse
    have hsegj : inUseSeg s'.rows 1 j =
        inUseSeg s'.rows 1 p + (rowAt s'.rows p).opcode.length := by
      have hstep : inUseSeg s'.rows 1 (p + 1) =
          inUseSeg s'.rows 1 p + inUseLen (rowAt s'.rows p) :=
        inUseSeg_succ s'.rows 1 p hp1 hpl
      have hz2 : inUseSeg s'.rows 1 j = inUseSeg s'.rows 1 (p + 1) :=
        inUseSeg_zeros s'.rows 1 (p + 1) j (by omega) (by omega) (le_of_lt hjl)
          (fun q hq1 hq2 => hz q (by omega) hq2)
      rw [hz2, hstep, inUseLen, hpuse]
      simp
    rw [haj, hap, hsegj]
    push_cast
    ring

/-- C1 counterexample: make row 0 a not-in-use row with a two-byte stale
opcode and row 1 an in-use row; the in-use opcode bytes before row 1 sum to
0, yet row 1's offset is 2 — the not-in-use row 0 contributed its stale
opcode length, contradicting the claim that rows with `in_use = false`
contribute zero bytes and that `offset` tracks the cumulative sum from
offset 0. -/
theorem recomputation_claim_counterexample :
    c1State.map (fun s => (rowAt s.rows 0).in_use) = some false ∧
    c1State.map (fun s => (rowAt s.rows 1).in_use) = some true ∧
    c1State.map (fun s => inUseSum (s.rows.take 1)) = some 0 ∧
    c1State.map (fun s => (rowAt s.rows 1).offset) = some 2 ∧
    (2 : Nat) ≠ 0 := by
  refine ⟨?_, ?_, ?_, ?_, ?_⟩ <;> decide

/-- Witness for the amended recomputation invariant at a concrete insert. -/
theorem recomputation_invariant_witness :
    0 < c1WitnessState.rows.length ∧ (rowAt c1WitnessState.rows 0).offset = 0 := by
  have h : applyOp initStore (StoreOp.ins 0 rowNop0) = some c1WitnessState := rfl
  have hmain := recomputation_invariant_after_op initStore c1WitnessState
    (StoreOp.ins 0 rowNop0) h
  exact ⟨hmain.1, hmain.2.1⟩

/-! ## Claim C3: index integrity -/

/-- C3 (amended): after a `DeleteRow` that completes, every row's `index`
field equals its position.  After an `InsertRowAt` with a non-negative
index, every row at a position strictly greater than the index is
renumbered to its position, while the inserted row keeps the index it was
built with and rows before the insertion position keep their previous
index values.  After an `InsertRowAt` with a negative index that completes,
the renumber loop's final pass `i = 0 .. len-1` renumbers every row — the
inserted row included — to its position. -/
theorem index_integrity_after_op (s : AssemblyStore) :
    (∀ i s', DeleteRow s i = Except.ok s' →
      ∀ k, k < s'.rows.length → (rowAt s'.rows k).index = k) ∧
    (∀ i r s', 0 ≤ i → InsertRowAt s i r = Except.ok s' →
      (∀ k, i.toNat < k → k < s'.rows.length → (rowAt s'.rows k).index = k) ∧
      (rowAt s'.rows (pyInsertPos s.rows.length i)).index = r.index ∧
      (∀ k, k < pyInsertPos s.rows.length i →
        (rowAt s'.rows k).index = (rowAt s.rows k).index)) ∧
    (∀ i r s', i < 0 → InsertRowAt s i r = Except.ok s' →
      ∀ k, k < s'.rows.length → (rowAt s'.rows k).index = k) := by
  refine ⟨?_, ?_, ?_⟩
  · intro i s' hdel
    have happ : applyOp s (StoreOp.del i) = some s' := by
      show (DeleteRow s i).toOption = some s'
      rw [hdel]
      rfl
    obtain ⟨hOA, hv⟩ := applyOp_eq s s' (StoreOp.del i) happ
    have hpres := updateOA_preserves _ _ hOA
    have hlen := (updateOA_spec _ _ hOA).1
    intro k hk
    have hkm : k < (opMid s (StoreOp.del i)).rows.length := by
      rw [← hlen]; exact hk
    have hmid : (opMid s (StoreOp.del i)).rows =
        renumberFrom 0 (s.rows.eraseIdx (pyNormPos s.rows.length i)) := rfl
    have hke : k < (s.rows.eraseIdx (pyNormPos s.rows.length i)).length := by
      rw [← renumberFrom_length 0]; rw [hmid] at hkm; exact hkm
    have hidx := (hpres k hkm).2.2.1
    rw [hidx, hmid, renumberFrom_rowAt 0 _ k hke, if_pos (Nat.zero_le k)]
  · intro i r s' hi0 hins
    obtain ⟨hv, hOA⟩ := insertRowAt_ok s s' i r hins
    have hpres := updateOA_preserves _ _ hOA
    have hlen := (updateOA_spec _ _ hOA).1
    have hmlen : ({ s with rows := insRows s i r } : AssemblyStore).rows.length =
        s.rows.length + 1 := insRows_length s i r
    have hstart := insStart_nonneg i hi0
    have hposle : pyInsertPos s.rows.length i ≤ s.rows.length :=
      pyInsertPos_le s.rows.length i
    have hpostn : pyInsertPos s.rows.length i ≤ i.toNat :=
      pyInsertPos_le_toNat s.rows.length i hi0
    refine ⟨?_, ?_, ?_⟩
    · intro k hk1 hk2
      have hkm : k < ({ s with rows := insRows s i r } : AssemblyStore).rows.length := by
        rw [← hlen]; exact hk2
      have hke : k < (pyInsert (pyInsertPos s.rows.length i) r s.rows).length := by
        rw [pyInsert_length]
        rw [hmlen] at hkm
        exact hkm
      rw [(hpres k hkm).2.2.1]
      show (rowAt (insRows s i r) k).index = k
      rw [insRows, renumberFrom_rowAt _ _ k hke, hstart, if_pos (by omega)]
    · have hposm : pyInsertPos s.rows.length i <
          ({ s with rows := insRows s i r } : AssemblyStore).rows.length := by
        rw [hmlen]; omega
      have hke : pyInsertPos s.rows.length i <
          (pyInsert (pyInsertPos s.rows.length i) r s.rows).length := by
        rw [pyInsert_length]; omega
      rw [(hpres _ hposm).2.2.1]
      show (rowAt (insRows s i r) (pyInsertPos s.rows.length i)).index = r.index
      rw [insRows, renumberFrom_rowAt _ _ _ hke, hstart, if_neg (by omega),
        pyInsert_rowAt_self _ r s.rows hposle]
    · intro k hklt
      have hkm : k < ({ s with rows := insRows s i r } : AssemblyStore).rows.length := by
        rw [hmlen]; omega
      have hke : k < (pyInsert (pyInsertPos s.rows.length i) r s.rows).length := by
        rw [pyInsert_length]; omega
      rw [(hpres k hkm).2.2.1]
      show (rowAt (insRows s i r) k).index = (rowAt s.rows k).index
      rw [insRows, renumberFrom_rowAt _ _ k hke, hstart, if_neg (by omega),
        pyInsert_rowAt_lt _ r s.rows hposle k hklt]
  · intro i r s' hineg hins
    obtain ⟨hv, hOA⟩ := insertRowAt_ok s s' i r hins
    have hpres := updateOA_preserves _ _ hOA
    have hlen := (updateOA_spec _ _ hOA).1
    have hmlen : ({ s with rows := insRows s i r } : AssemblyStore).rows.length =
        s.rows.length + 1 := insRows_length s i r
    have hstart := insStart_neg i hineg
    intro k hk
    have hkm : k < ({ s with rows := insRows s i r } : AssemblyStore).rows.length := by
      rw [← hlen]; exact hk
    have hke : k < (pyInsert (pyInsertPos s.rows.length i) r s.rows).length := by
      rw [pyInsert_length]
      rw [hmlen] at hkm
      exact hkm
    rw [(hpres k hkm).2.2.1]
    show (rowAt (insRows s i r) k).index = k
    rw [insRows, renumberFrom_rowAt _ _ k hke, hstart, if_pos (Nat.zero_le k)]

/-- C3 counterexample: inserting at position 0 a row built with index 5
leaves the stored row 0 carrying index 5, not its position 0. -/
theorem index_claim_counterexample :
    c3State.map (fun s => (rowAt s.rows 0).index) = some 5 ∧ (5 : Nat) ≠ 0 := by
  exact ⟨by decide, by decide⟩

/-- Witness for the amended index-integrity statement at a concrete
delete. -/
theorem index_integrity_witness :
    (rowAt delState.rows 3).index = 3 := by
  have hdel : DeleteRow initStore 0 = Except.ok delState := rfl
  exact (index_integrity_after_op initStore).1 0 delState hdel 3 (by decide)

/-! ## Claim C4: insertRowAt and out-of-range indices -/

/-- C4 (amended): there is no `IndexOutOfRange` check.  `InsertRowAt`
completes for every index down to `-(length + 2)`, clamping Python-style
(an index at or beyond the length appends at the end) and growing the row
count by one; an index at or below `-(length + 3)` raises `IndexError` from
the renumber loop's first wraparound access — but only after the row has
been inserted at position 0, so the store is modified even on that
failure. -/
theorem insert_index_behaviour (s : AssemblyStore) (i : Int) (r : RowData) :
    (insOk s.rows.length i → ∃ s', InsertRowAt s i r = Except.ok s') ∧
    (∀ s', InsertRowAt s i r = Except.ok s' →
      s'.rows.length = s.rows.length + 1) ∧
    ((s.rows.length : Int) ≤ i →
      InsertRowAt s i r = InsertRowAt s (s.rows.length : Int) r) ∧
    (i < -((s.rows.length : Int) + 2) →
      InsertRowAt s i r = Except.error { s with rows := pyInsert 0 r s.rows }) := by
  refine ⟨?_, ?_, ?_, ?_⟩
  · intro hv
    have hne : ({ s with rows := insRows s i r } : AssemblyStore).rows ≠ [] := by
      have hl := insRows_length s i r
      intro hnil
      show False
      rw [show ({ s with rows := insRows s i r } : AssemblyStore).rows =
        insRows s i r from rfl] at hnil
      rw [hnil] at hl
      simp at hl
    obtain ⟨t, ht⟩ := updateOA_isSome { s with rows := insRows s i r } hne
    refine ⟨t, ?_⟩
    rw [InsertRowAt, if_pos hv, ht]
  · intro s' hs
    obtain ⟨hv, hOA⟩ := insertRowAt_ok s s' i r hs
    have hlen := (updateOA_spec _ _ hOA).1
    rw [hlen]
    exact insRows_length s i r
  · intro hge
    have hv1 : insOk s.rows.length i := by unfold insOk; omega
    have hv2 : insOk s.rows.length (s.rows.length : Int) := by unfold insOk; omega
    have hb1 : (pyInsert s.rows.length r s.rows).length ≤ insStart i := by
      rw [pyInsert_length, insStart_nonneg i (by omega)]
      omega
    have hb2 : (pyInsert s.rows.length r s.rows).length ≤
        insStart (s.rows.length : Int) := by
      rw [pyInsert_length, insStart_nonneg _ (by omega)]
      omega
    have heqr : insRows s i r = insRows s (s.rows.length : Int) r := by
      unfold insRows
      rw [pyInsertPos_big s.rows.length i hge,
        pyInsertPos_big s.rows.length (s.rows.length : Int) (le_refl _),
        renumberFrom_ge _ _ hb1, renumberFrom_ge _ _ hb2]
    simp only [InsertRowAt]
    rw [if_pos hv1, if_pos hv2, heqr]
  · intro hlt
    have hnv : ¬ insOk s.rows.length i := by unfold insOk; omega
    have h0 : pyInsertPos s.rows.length i = 0 :=
      pyInsertPos_small s.rows.length i (by omega)
    rw [InsertRowAt, if_neg hnv, h0]

/-- C4 counterexample: with 20 rows in the store, inserting at index 100
succeeds (appending at the end) instead of failing with an index error and
the store is modified; inserting at index -100 raises, but the escaped
store has 21 rows — the row was inserted before the raise, so a failed
insert does not leave the state unmodified either. -/
theorem insert_out_of_range_counterexample :
    c4State.isSome = true ∧
    c4State.map (fun s => s.rows.length) = some 21 ∧
    c4State.map (fun s => (rowAt s.rows 20).mnemonic) = some "NOP" ∧
    InsertRowAt initStore (-100) rowNop0 =
      Except.error { initStore with rows := pyInsert 0 rowNop0 initStore.rows } ∧
    (pyInsert 0 rowNop0 initStore.rows).length = 21 := by
  exact ⟨by decide, by decide, by decide, by rfl, by decide⟩

/-- Witness for the amended insert behaviour at the out-of-range index
100. -/
theorem insert_index_behaviour_witness :
    c4State.isSome = true ∧
    InsertRowAt initStore 100 rowNop0 = InsertRowAt initStore 20 rowNop0 := by
  have h := insert_index_behaviour initStore 100 rowNop0
  obtain ⟨s1, hs⟩ := h.1 (by decide)
  constructor
  · show ((InsertRowAt initStore 100 rowNop0).toOption).isSome = true
    rw [hs]
    rfl
  · have hcl := h.2.2.1 (by decide)
    rw [hcl, show ((initStore.rows.length : Nat) : Int) = 20 from by decide]

/-! ## Claim C10: deleting the last remaining row -/

/-- C10: on a store holding exactly one row, `DeleteRow 0` pops the row and
then the mandatory recomputation pass indexes row 0 of the now-empty
sequence and raises — the exception escapes with the store already holding
an empty row sequence. -/
theorem delete_last_row_raises (s : AssemblyStore) (h : s.rows.length = 1) :
    DeleteRow s 0 = Except.error { s with rows := [] } := by
  match hrows : s.rows, h with
  | [r], _ =>
    have hok : pyIdxOk s.rows.length 0 := by
      unfold pyIdxOk
      rw [hrows]
      constructor <;> simp
    rw [DeleteRow, if_pos hok, hrows]
    have hn : pyNormPos [r].length 0 = 0 := by
      unfold pyNormPos
      simp
    rw [hn]
    rfl

/-- Witness for the one-row delete behaviour on a concrete store. -/
theorem delete_last_row_raises_witness :
    DeleteRow oneRowStore 0 = Except.error { oneRowStore with rows := [] } :=
  delete_last_row_raises oneRowStore (by decide)

/-! ## Hex decoding is exactly the even-length hex-digit strings -/

theorem validHex_cons_cons (a b : Char) (rest : List Char) :
    ValidHex (a :: b :: rest) ↔
      ((hexVal? a).isSome = true ∧ (hexVal? b).isSome = true ∧ ValidHex rest) := by
  unfold ValidHex
  simp only [List.mem_cons, List.length_cons]
  constructor
  · rintro ⟨hp, hall⟩
    refine ⟨hall a (Or.inl rfl), hall b (Or.inr (Or.inl rfl)), by omega, ?_⟩
    intro c hc
    exact hall c (Or.inr (Or.inr hc))
  · rintro ⟨h1, h2, hp, hall⟩
    refine ⟨by omega, ?_⟩
    rintro c (hc | hc | hc)
    · rw [hc]; exact h1
    · rw [hc]; exact h2
    · exact hall c hc

theorem pyUnhexlify_isSome (n : Nat) :
    ∀ l : List Char, l.length ≤ n →
      ((pyUnhexlify l).isSome = true ↔ ValidHex l) := by
  induction n with
  | zero =>
    intro l hl
    have : l = [] := by
      cases l with
      | nil => rfl
      | cons c cs => simp at hl
    rw [this]
    simp [pyUnhexlify, ValidHex]
  | succ n ih =>
    intro l hl
    match l with
    | [] => simp [pyUnhexlify, ValidHex]
    | [a] =>
      constructor
      · intro hcontra
        simp [pyUnhexlify] at hcontra
      · intro hv
        exact absurd hv.1 (by simp)
    | a :: b :: rest =>
      have hr : rest.length ≤ n := by
        simp only [List.length_cons] at hl
        omega
      have hrec := ih rest hr
      rw [validHex_cons_cons]
      cases ha : hexVal? a with
      | none =>
        simp only [pyUnhexlify, ha]
        cases hb : hexVal? b <;> cases hrst : pyUnhexlify rest <;>
          simp [ha, hb, hrst]
      | some x =>
        cases hb : hexVal? b with
        | none =>
          simp only [pyUnhexlify, ha, hb]
          cases hrst : pyUnhexlify rest <;> simp [ha, hb, hrst]
        | some y =>
          cases hrst : pyUnhexlify rest with
          | none =>
            simp only [pyUnhexlify, ha, hb, hrst]
            rw [hrst] at hrec
            simp only [Option.isSome_none] at hrec
            simp [ha, hb, ← hrec]
          | some tail =>
            simp only [pyUnhexlify, ha, hb, hrst]
            rw [hrst] at hrec
            simp only [Option.isSome_some] at hrec
            simp [ha, hb, ← hrec]

theorem pyUnhexlify_none_iff (l : List Char) :
    pyUnhexlify l = none ↔ ¬ ValidHex l := by
  have h := pyUnhexlify_isSome l.length l (le_refl _)
  constructor
  · intro hn hv
    have := h.mpr hv
    rw [hn] at this
    simp at this
  · intro hv
    cases hx : pyUnhexlify l with
    | none => rfl
    | some x =>
      exact absurd (h.mp (by rw [hx]; rfl)) hv

/-! ## Claim C5: SetOpcode -/

/-- C5: `SetOpcode` decodes exactly the valid hex encodings (after removing
spaces: even length, hex digits only) and stores the decoded bytes with
`in_use = true`; on any other input it sets `in_use = false`, `error = true`,
installs the sentinel mnemonic, and keeps the bytes of the original text as
the stored opcode value. -/
theorem setOpcode_spec (r : RowData) (s : String) :
    (pyUnhexlify (s.toList.filter (fun c => c ≠ ' ')) = none ↔
      ¬ ValidHex (s.toList.filter (fun c => c ≠ ' '))) ∧
    (∀ bs, pyUnhexlify (s.toList.filter (fun c => c ≠ ' ')) = some bs →
      RowData.SetOpcode r s = { r with opcode := bs, in_use := true }) ∧
    (pyUnhexlify (s.toList.filter (fun c => c ≠ ' ')) = none →
      RowData.SetOpcode r s =
        { r with in_use := false
                 opcode := s.toList.map Char.toNat
                 mnemonic := "<INVALID OPCODE SUPPLIED>"
                 error := true }) := by
  refine ⟨?_, ?_, ?_⟩
  · rw [pyUnhexlify_none_iff]
  · intro bs hbs
    unfold RowData.SetOpcode
    rw [hbs]
  · intro hnone
    unfold RowData.SetOpcode
    rw [hnone]

/-- Witness: `SetOpcode "zz"` takes the failure path exactly as the claim
describes. -/
theorem setOpcode_spec_witness :
    pyUnhexlify ("zz".toList.filter (fun c => c ≠ ' ')) = none ∧
    ¬ ValidHex ("zz".toList.filter (fun c => c ≠ ' ')) ∧
    RowData.SetOpcode baseRow "zz" =
      { baseRow with in_use := false
                     opcode := "zz".toList.map Char.toNat
                     mnemonic := "<INVALID OPCODE SUPPLIED>"
                     error := true } := by
  have h := setOpcode_spec baseRow "zz"
  have hnone : pyUnhexlify ("zz".toList.filter (fun c => c ≠ ' ')) = none := by decide
  exact ⟨hnone, h.1.mp hnone, h.2.2 hnone⟩

/-! ## Claim C6: opcode display round-trip -/

theorem hexVal_hexDigit : ∀ d, d < 16 → hexVal? (hexDigit d) = some d := by
  decide

theorem hexDigit_not_space : ∀ d, d < 16 →
    hexDigit d ≠ ' ' ∧ (hexDigit d).isWhitespace = false := by
  decide

theorem pyUnhexlify_pyHexlify (bs : List Nat) (h : ∀ b ∈ bs, b < 256) :
    pyUnhexlify (pyHexlify bs) = some bs := by
  induction bs with
  | nil => rfl
  | cons b rest ih =>
    have hb : b < 256 := h b (List.mem_cons_self b rest)
    have hrest : ∀ x ∈ rest, x < 256 := fun x hx => h x (List.mem_cons_of_mem b hx)
    have hcons : pyHexlify (b :: rest) =
        hexDigit (b / 16) :: hexDigit (b % 16) :: pyHexlify rest := by
      simp [pyHexlify]
    rw [hcons]
    show (match hexVal? (hexDigit (b / 16)), hexVal? (hexDigit (b % 16)),
        pyUnhexlify (pyHexlify rest) with
      | some x, some y, some tail => some ((x * 16 + y) :: tail)
      | _, _, _ => none) = some (b :: rest)
    rw [hexVal_hexDigit (b / 16) (by omega), hexVal_hexDigit (b % 16) (by omega),
      ih hrest]
    have : b / 16 * 16 + b % 16 = b := by omega
    show some ((b / 16 * 16 + b % 16) :: rest) = some (b :: rest)
    rw [this]

theorem mem_pyHexlify (bs : List Nat) (h : ∀ b ∈ bs, b < 256) (c : Char)
    (hc : c ∈ pyHexlify bs) : ∃ d, d < 16 ∧ c = hexDigit d := by
  unfold pyHexlify at hc
  rw [List.mem_flatMap] at hc
  obtain ⟨b, hb, hcf⟩ := hc
  have hblt : b < 256 := h b hb
  simp only [List.mem_cons, List.not_mem_nil, or_false] at hcf
  rcases hcf with hcf | hcf
  · exact ⟨b / 16, by omega, hcf⟩
  · exact ⟨b % 16, by omega, hcf⟩

theorem mem_addPairSpaces (n : Nat) :
    ∀ l : List Char, l.length ≤ n → ∀ c ∈ addPairSpaces l, c ∈ l ∨ c = ' ' := by
  induction n with
  | zero =>
    intro l hl c hc
    have : l = [] := by
      cases l with
      | nil => rfl
      | cons x xs => simp at hl
    rw [this] at hc
    exact absurd hc (by simp [addPairSpaces])
  | succ n ih =>
    intro l hl c hc
    match l with
    | [] => exact absurd hc (by simp [addPairSpaces])
    | [a] =>
      rw [show addPairSpaces [a] = [a] from rfl] at hc
      exact Or.inl hc
    | a :: b :: rest =>
      rw [show addPairSpaces (a :: b :: rest) =
        a :: b :: ' ' :: addPairSpaces rest from rfl] at hc
      simp only [List.mem_cons] at hc
      rcases hc with hc | hc | hc | hc
      · exact Or.inl (by rw [hc]; exact List.mem_cons_self a _)
      · exact Or.inl (by rw [hc]; simp)
      · exact Or.inr hc
      · have hr : rest.length ≤ n := by
          simp only [List.length_cons] at hl
          omega
        rcases ih rest hr c hc with h1 | h1
        · exact Or.inl (by simp [h1])
        · exact Or.inr h1

theorem filter_addPairSpaces (n : Nat) :
    ∀ l : List Char, l.length ≤ n → (∀ c ∈ l, c ≠ ' ') →
      (addPairSpaces l).filter (fun c => c ≠ ' ') = l := by
  induction n with
  | zero =>
    intro l hl _
    have : l = [] := by
      cases l with
      | nil => rfl
      | cons x xs => simp at hl
    rw [this]
    rfl
  | succ n ih =>
    intro l hl hc
    match l with
    | [] => rfl
    | [a] =>
      rw [show addPairSpaces [a] = [a] from rfl]
      have := hc a (by simp)
      simp [List.filter, this]
    | a :: b :: rest =>
      rw [show addPairSpaces (a :: b :: rest) =
        a :: b :: ' ' :: addPairSpaces rest from rfl]
      have ha := hc a (by simp)
      have hb := hc b (by simp)
      have hr : rest.length ≤ n := by
        simp only [List.length_cons] at hl
        omega
      have hcr : ∀ c ∈ rest, c ≠ ' ' := fun c hcm => hc c (by simp [hcm])
      simp only [List.filter]
      rw [show (decide (a ≠ ' ')) = true by simp [ha],
        show (decide (b ≠ ' ')) = true by simp [hb],
        show (decide (' ' ≠ ' ')) = false by simp]
      rw [ih rest hr hcr]

theorem filter_dropWhile_ws (l : List Char)
    (h : ∀ c ∈ l, c.isWhitespace = true → c = ' ') :
    (l.dropWhile Char.isWhitespace).filter (fun c => c ≠ ' ') =
      l.filter (fun c => c ≠ ' ') := by
  induction l with
  | nil => rfl
  | cons c cs ih =>
    by_cases hcw : c.isWhitespace
    · have hsp : c = ' ' := h c (by simp) hcw
      rw [List.dropWhile_cons_of_pos (by simp [hcw])]
      rw [ih (fun x hx hw => h x (by simp [hx]) hw)]
      rw [hsp]
      simp [List.filter]
    · rw [List.dropWhile_cons_of_neg (by simp [hcw])]

theorem mem_of_mem_dropWhile (l : List Char) (c : Char)
    (hc : c ∈ l.dropWhile Char.isWhitespace) : c ∈ l := by
  induction l with
  | nil => exact absurd hc (by simp)
  | cons x xs ih =>
    by_cases hx : x.isWhitespace
    · rw [List.dropWhile_cons_of_pos (by simp [hx])] at hc
      exact List.mem_cons_of_mem x (ih hc)
    · rw [List.dropWhile_cons_of_neg (by simp [hx])] at hc
      exact hc

theorem filter_pyStrip (l : List Char)
    (h : ∀ c ∈ l, c.isWhitespace = true → c = ' ') :
    (pyStrip l).filter (fun c => c ≠ ' ') = l.filter (fun c => c ≠ ' ') := by
  unfold pyStrip
  rw [List.filter_reverse]
  rw [filter_dropWhile_ws ((l.dropWhile Char.isWhitespace).reverse) ?hrev]
  case hrev =>
    intro c hc hw
    exact h c (mem_of_mem_dropWhile l c (by simpa using hc)) hw
  rw [← List.filter_reverse, List.reverse_reverse]
  exact filter_dropWhile_ws l h

/-- C6: for every byte sequence stored as a row's opcode, `DisplayOpcode`
renders lower-case hex pairs separated by single spaces with no trailing
space, and stripping the spaces and hex-decoding that display string gives
back exactly the stored bytes. -/
theorem displayOpcode_roundtrip (r : RowData) (h : ∀ b ∈ r.opcode, b < 256) :
    parseHexDisplay (RowData.DisplayOpcode r) = some r.opcode := by
  unfold parseHexDisplay RowData.DisplayOpcode
  rw [show (String.mk (pyStrip (addPairSpaces (pyHexlify r.opcode)))).toList =
    pyStrip (addPairSpaces (pyHexlify r.opcode)) from rfl]
  have hws : ∀ c ∈ addPairSpaces (pyHexlify r.opcode),
      c.isWhitespace = true → c = ' ' := by
    intro c hc hw
    rcases mem_addPairSpaces (pyHexlify r.opcode).length (pyHexlify r.opcode)
      (le_refl _) c hc with hmem | hsp
    · obtain ⟨d, hd, hcd⟩ := mem_pyHexlify r.opcode h c hmem
      rw [hcd] at hw
      rw [(hexDigit_not_space d hd).2] at hw
      exact absurd hw (by simp)
    · exact hsp
  rw [filter_pyStrip _ hws]
  have hns : ∀ c ∈ pyHexlify r.opcode, c ≠ ' ' := by
    intro c hc
    obtain ⟨d, hd, hcd⟩ := mem_pyHexlify r.opcode h c hc
    rw [hcd]
    exact (hexDigit_not_space d hd).1
  rw [filter_addPairSpaces (pyHexlify r.opcode).length (pyHexlify r.opcode)
    (le_refl _) hns]
  exact pyUnhexlify_pyHexlify r.opcode h

/-- Witness for the display round-trip on a one-byte opcode. -/
theorem displayOpcode_roundtrip_witness :
    parseHexDisplay (RowData.DisplayOpcode rowNop0) = some rowNop0.opcode :=
  displayOpcode_roundtrip rowNop0 (by decide)

/-! ## Claim C7: label-resync validation -/

/-- C7: when both the row's stored mnemonic and the decoded text have a
leading token, `ReplaceLabel` returns the upper-cased mnemonic (leaving the
row untouched) exactly when the leading tokens agree case-insensitively and
the counts of each of `[ ] + - ,` agree; on any mismatch it returns the
empty string with the row's `error` flag set. -/
theorem replaceLabel_spec (row : RowData) (inst : String)
    (rt : List Char) (rts : List (List Char))
    (it : List Char) (its : List (List Char))
    (hrow : pySplitW row.mnemonic.toList = rt :: rts)
    (hinst : pySplitW inst.toList = it :: its) :
    ((rt.map Char.toLower = it.map Char.toLower ∧
      ∀ c ∈ ['[', ']', '+', '-', ','],
        row.mnemonic.toList.count c = inst.toList.count c) →
      ReplaceLabel row inst =
        some (String.mk (row.mnemonic.toList.map Char.toUpper), row)) ∧
    (¬ (rt.map Char.toLower = it.map Char.toLower ∧
      ∀ c ∈ ['[', ']', '+', '-', ','],
        row.mnemonic.toList.count c = inst.toList.count c) →
      ReplaceLabel row inst = some ("", { row with error := true })) := by
  have hred : ReplaceLabel row inst =
      (if rt.map Char.toLower ≠ it.map Char.toLower then
        some ("", { row with error := true })
      else if (['[', ']', '+', '-', ','].any
          (fun c => row.mnemonic.toList.count c ≠ inst.toList.count c)) then
        some ("", { row with error := true })
      else
        some (String.mk (row.mnemonic.toList.map Char.toUpper), row)) := by
    unfold ReplaceLabel
    rw [hrow, hinst]
  rw [hred]
  constructor
  · rintro ⟨heq, hcnt⟩
    rw [if_neg (by simp [heq])]
    have hany : (['[', ']', '+', '-', ','].any
        (fun c => decide (row.mnemonic.toList.count c ≠ inst.toList.count c))) =
          false := by
      rw [List.any_eq_false]
      intro c hcm
      simpa using hcnt c hcm
    rw [if_neg (by rw [hany]; simp)]
  · intro hneg
    by_cases heq : rt.map Char.toLower = it.map Char.toLower
    · have hcnt : ¬ ∀ c ∈ ['[', ']', '+', '-', ','],
          row.mnemonic.toList.count c = inst.toList.count c := by
        intro hall
        exact hneg ⟨heq, hall⟩
      rw [if_neg (by simp [heq])]
      have hany : (['[', ']', '+', '-', ','].any
          (fun c => decide (row.mnemonic.toList.count c ≠ inst.toList.count c))) =
            true := by
        rw [List.any_eq_true]
        push_neg at hcnt
        obtain ⟨c, hcm, hcne⟩ := hcnt
        exact ⟨c, hcm, by simpa using hcne⟩
      rw [if_pos hany]
    · rw [if_pos heq]

/-- Witness: for the stored mnemonic `JMP [ebx+4]` and decoded text
`jmp [ebx]` the tokens agree but the `+` counts differ, so the replacement
is rejected: the empty string is returned and the row's error flag set. -/
theorem replaceLabel_witness :
    ReplaceLabel jmpRow "jmp [ebx]" = some ("", { jmpRow with error := true }) := by
  have h := replaceLabel_spec jmpRow "jmp [ebx]"
    "JMP".toList ["[ebx+4]".toList] "jmp".toList ["[ebx]".toList]
    (by decide) (by decide)
  exact h.2 (by decide)

/-! ## Tokens of the normalized mnemonic -/

theorem splitGroups_ne_nil (l : List Char) : splitGroups l ≠ [] := by
  cases l with
  | nil => simp [splitGroups]
  | cons c cs =>
    unfold splitGroups
    by_cases h : c.isWhitespace <;> simp [h]

theorem splitGroups_headD (l : List Char) :
    (splitGroups l).headD [] = l.takeWhile (fun c => !c.isWhitespace) := by
  induction l with
  | nil => rfl
  | cons c cs ih =>
    unfold splitGroups
    by_cases h : c.isWhitespace
    · rw [if_pos h]
      rw [List.takeWhile_cons_of_neg (by simp [h])]
      rfl
    · rw [if_neg h]
      rw [List.takeWhile_cons_of_pos (by simp [h])]
      simp only [List.headD_cons]
      rw [ih]

theorem pySplitW_head (l : List Char) :
    ∀ t ts, pySplitW l = t :: ts →
      t = (l.dropWhile Char.isWhitespace).takeWhile (fun c => !c.isWhitespace) := by
  induction l with
  | nil =>
    intro t ts h
    simp [pySplitW, splitGroups] at h
  | cons c cs ih =>
    intro t ts h
    have hsg : splitGroups (c :: cs) =
        (if c.isWhitespace then [] :: splitGroups cs
         else (c :: (splitGroups cs).headD []) :: (splitGroups cs).tail) := rfl
    by_cases hc : c.isWhitespace
    · rw [List.dropWhile_cons_of_pos (by simp [hc])]
      apply ih t ts
      have hstep : pySplitW (c :: cs) = pySplitW cs := by
        show (splitGroups (c :: cs)).filter (fun g => g ≠ []) = _
        rw [hsg, if_pos hc, List.filter_cons]
        simp [pySplitW]
      rw [← hstep]
      exact h
    · rw [List.dropWhile_cons_of_neg (by simp [hc])]
      rw [List.takeWhile_cons_of_pos (by simp [hc])]
      have hsp : pySplitW (c :: cs) =
          (c :: (splitGroups cs).headD []) :: ((splitGroups cs).tail.filter
            (fun g => g ≠ [])) := by
        show (splitGroups (c :: cs)).filter (fun g => g ≠ []) = _
        rw [hsg, if_neg hc, List.filter_cons]
        simp
      rw [hsp] at h
      have ht : t = c :: (splitGroups cs).headD [] := by
        have := h
        injection this with h1 h2
        exact h1.symm
      rw [ht, splitGroups_headD]

theorem dropWhile_idem (p : Char → Bool) (l : List Char) :
    (l.dropWhile p).dropWhile p = l.dropWhile p := by
  induction l with
  | nil => rfl
  | cons c cs ih =>
    by_cases h : p c
    · rw [List.dropWhile_cons_of_pos h, ih]
    · rw [List.dropWhile_cons_of_neg h, List.dropWhile_cons_of_neg h]

theorem dropWhile_eq_self_of_prefix (p : Char → Bool) (z y : List Char)
    (hzy : z <+: y) (hy : y.dropWhile p = y) : z.dropWhile p = z := by
  cases z with
  | nil => rfl
  | cons a z1 =>
    obtain ⟨s, hs⟩ := hzy
    have hy' : y = a :: (z1 ++ s) := by rw [← hs]; rfl
    have hpa : p a = false := by
      by_contra hpa
      have hpa' : p a = true := by
        cases hp : p a with
        | true => rfl
        | false => exact absurd hp hpa
      rw [hy', List.dropWhile_cons_of_pos hpa'] at hy
      have hle : ((z1 ++ s).dropWhile p).length ≤ (z1 ++ s).length :=
        (List.dropWhile_suffix p).sublist.length_le
      rw [hy] at hle
      simp at hle
    rw [List.dropWhile_cons_of_neg (by simp [hpa])]

theorem pyStrip_prefix_dropWhile (x : List Char) :
    pyStrip x <+: x.dropWhile Char.isWhitespace := by
  unfold pyStrip
  have hsuf : (x.dropWhile Char.isWhitespace).reverse.dropWhile Char.isWhitespace <:+
      (x.dropWhile Char.isWhitespace).reverse := List.dropWhile_suffix _
  have := List.reverse_prefix.mpr hsuf
  simpa using this

theorem pyStrip_no_leading_ws (x : List Char) :
    (pyStrip x).dropWhile Char.isWhitespace = pyStrip x :=
  dropWhile_eq_self_of_prefix Char.isWhitespace (pyStrip x)
    (x.dropWhile Char.isWhitespace) (pyStrip_prefix_dropWhile x)
    (dropWhile_idem Char.isWhitespace x)

theorem prefix_takeWhile (q : Char → Bool) :
    ∀ (p l : List Char), p <+: l → (∀ c ∈ p, q c = true) → p <+: l.takeWhile q := by
  intro p
  induction p with
  | nil => intro l _ _; exact List.nil_prefix
  | cons a p1 ih =>
    intro l hpre hq
    obtain ⟨s, hs⟩ := hpre
    have hl : l = a :: (p1 ++ s) := by rw [← hs]; rfl
    rw [hl, List.takeWhile_cons_of_pos (hq a (by simp))]
    have := ih (p1 ++ s) ⟨s, rfl⟩ (fun c hc => hq c (by simp [hc]))
    exact (List.prefix_cons_inj a).mpr this

/-- Transfer of `startswith` between the whole stripped text and its leading
token, for a pattern without whitespace. -/
theorem isPrefixOf_strip_iff_token (x t : List Char) (ts : List (List Char))
    (h : pySplitW (pyStrip x) = t :: ts) (p : List Char)
    (hpc : ∀ c ∈ p, c.isWhitespace = false) :
    p.isPrefixOf (pyStrip x) = p.isPrefixOf t := by
  have htok : t = (pyStrip x).takeWhile (fun c => !c.isWhitespace) := by
    have := pySplitW_head (pyStrip x) t ts h
    rw [pyStrip_no_leading_ws x] at this
    exact this
  rw [Bool.eq_iff_iff, List.isPrefixOf_iff_prefix, List.isPrefixOf_iff_prefix]
  constructor
  · intro hp
    rw [htok]
    exact prefix_takeWhile _ p (pyStrip x) hp (fun c hc => by simp [hpc c hc])
  · intro hp
    rw [htok] at hp
    exact hp.trans ( List.takeWhile_prefix _)

/-! ## Claims C9 and C2: SetMnemonic classification and formatting -/

theorem setMnemonic_cases (r : RowData) (m : String) (t : List Char)
    (ts : List (List Char)) (hm : m ≠ "")
    (ht : pySplitW (pyStrip (m.toList.map Char.toLower)) = t :: ts) :
    RowData.SetMnemonic r m =
      (if (t = "db".toList || t = "dw".toList || t = "dd".toList ||
          t = "dq".toList) = true then
        match pySplitW m.toList with
        | [] =>
          Except.error { r with
            mnemonic := m
            is_branch_or_call :=
              ("j".toList.isPrefixOf (pyStrip (m.toList.map Char.toLower)) ||
               "call".toList.isPrefixOf (pyStrip (m.toList.map Char.toLower)))
            is_a_data_defintion_inst := true }
        | u :: us =>
          Except.ok { r with
            mnemonic := String.mk ((u.map Char.toUpper) ++ (' ' :: us.flatten))
            is_branch_or_call :=
              ("j".toList.isPrefixOf (pyStrip (m.toList.map Char.toLower)) ||
               "call".toList.isPrefixOf (pyStrip (m.toList.map Char.toLower)))
            is_a_data_defintion_inst := true
            in_use := true }
      else
        Except.ok { r with
          mnemonic := String.mk (m.toList.map Char.toUpper)
          is_branch_or_call :=
            ("j".toList.isPrefixOf (pyStrip (m.toList.map Char.toLower)) ||
             "call".toList.isPrefixOf (pyStrip (m.toList.map Char.toLower)))
          is_a_data_defintion_inst := false
          in_use := true }) := by
  unfold RowData.SetMnemonic
  rw [if_neg hm, ht]

/-- C9 (amended): for every mnemonic text whose normalization has a leading
token, a successful `SetMnemonic` sets `is_branch_or_call = true` exactly
when the leading token starts with `j` or starts with `call`
(case-insensitive; the source tests `startswith('call')`, not equality
with `call`), and sets `is_a_data_defintion_inst = true` exactly when the
leading token is one of `db, dw, dd, dq`. -/
theorem setMnemonic_classification (r : RowData) (m : String) (r' : RowData)
    (t : List Char) (ts : List (List Char)) (hm : m ≠ "")
    (ht : pySplitW (pyStrip (m.toList.map Char.toLower)) = t :: ts)
    (hok : RowData.SetMnemonic r m = Except.ok r') :
    r'.is_branch_or_call =
      ("j".toList.isPrefixOf t || "call".toList.isPrefixOf t) ∧
    r'.is_a_data_defintion_inst =
      (t = "db".toList || t = "dw".toList || t = "dd".toList ||
        t = "dq".toList) ∧
    r'.in_use = true := by
  have hbr : ("j".toList.isPrefixOf (pyStrip (m.toList.map Char.toLower)) ||
      "call".toList.isPrefixOf (pyStrip (m.toList.map Char.toLower))) =
      ("j".toList.isPrefixOf t || "call".toList.isPrefixOf t) := by
    rw [isPrefixOf_strip_iff_token (m.toList.map Char.toLower) t ts ht
      "j".toList (by decide)]
    rw [isPrefixOf_strip_iff_token (m.toList.map Char.toLower) t ts ht
      "call".toList (by decide)]
  rw [setMnemonic_cases r m t ts hm ht] at hok
  cases hdd : (t = "db".toList || t = "dw".toList || t = "dd".toList ||
      t = "dq".toList) with
  | false =>
    rw [if_neg (by rw [hdd]; simp)] at hok
    injection hok with hok
    subst hok
    exact ⟨hbr, rfl, rfl⟩
  | true =>
    rw [if_pos (by rw [hdd])] at hok
    cases hu : pySplitW m.toList with
    | nil =>
      rw [hu] at hok
      simp at hok
    | cons u us =>
      rw [hu] at hok
      injection hok with hok
      subst hok
      exact ⟨hbr, rfl, rfl⟩

/-- C2 (amended): for every mnemonic whose leading (normalized) token is one
of `db/dw/dd/dq`, `SetMnemonic` stores the leading original token
upper-cased, then a single space, then the remaining tokens concatenated
with no separator, and sets `is_a_data_defintion_inst = true`; in
particular `SetMnemonic "db 1,2,3"` stores `"DB 1,2,3"`. -/
theorem setMnemonic_data_definition (r : RowData) (m : String) (r' : RowData)
    (t : List Char) (ts : List (List Char)) (u : List Char)
    (us : List (List Char)) (hm : m ≠ "")
    (ht : pySplitW (pyStrip (m.toList.map Char.toLower)) = t :: ts)
    (hdd : (t = "db".toList || t = "dw".toList || t = "dd".toList ||
      t = "dq".toList) = true)
    (hu : pySplitW m.toList = u :: us)
    (hok : RowData.SetMnemonic r m = Except.ok r') :
    r'.mnemonic = String.mk ((u.map Char.toUpper) ++ (' ' :: us.flatten)) ∧
    r'.is_a_data_defintion_inst = true ∧ r'.in_use = true := by
  rw [setMnemonic_cases r m t ts hm ht, if_pos hdd, hu] at hok
  injection hok with hok
  subst hok
  exact ⟨rfl, rfl, rfl⟩

/-- C2 counterexample: `SetMnemonic "db 1,2,3"` stores `"DB 1,2,3"` — a
space remains after the upper-cased directive — not `"DB1,2,3"`. -/
theorem setMnemonic_space_counterexample :
    (RowData.SetMnemonic baseRow "db 1,2,3").toOption.map RowData.mnemonic =
      some "DB 1,2,3" ∧
    "DB 1,2,3" ≠ "DB1,2,3" := by
  exact ⟨by decide, by decide⟩

/-- Witness for the data-definition formatting at `"db 1,2,3"`. -/
theorem setMnemonic_data_definition_witness :
    c2Row.mnemonic = "DB 1,2,3" ∧ c2Row.is_a_data_defintion_inst = true := by
  have h := setMnemonic_data_definition baseRow "db 1,2,3" c2Row
    "db".toList ["1,2,3".toList] "db".toList ["1,2,3".toList]
    (by decide) (by decide) (by decide) (by decide) rfl
  exact ⟨h.1.trans (by decide), h.2.1⟩

/-- C9 counterexample: `SetMnemonic "calls eax"` sets
`is_branch_or_call = true` although the leading token `calls` neither
starts with `j` nor equals `call` — the source tests a `call` prefix of the
whole normalized text, not token equality. -/
theorem branch_classification_counterexample :
    (RowData.SetMnemonic baseRow "calls eax").toOption.map
      RowData.is_branch_or_call = some true ∧
    pySplitW (pyStrip ("calls eax".toList.map Char.toLower)) =
      "calls".toList :: ["eax".toList] ∧
    "calls".toList ≠ "call".toList ∧
    "calls".toList.headD ' ' ≠ 'j' := by
  exact ⟨by decide, by decide, by decide, by decide⟩

/-- Witness for the amended classification at `"calls eax"`. -/
theorem setMnemonic_classification_witness :
    c9Row.is_branch_or_call = true ∧ c9Row.is_a_data_defintion_inst = false := by
  have h := setMnemonic_classification baseRow "calls eax" c9Row
    "calls".toList ["eax".toList] (by decide) (by decide) rfl
  exact ⟨h.1.trans (by decide), (h.2.1).trans (by decide)⟩

/-! ## Claim C8: copy isolation -/

theorem heapGet_append (h ext : RowHeap) (r : Nat) (hr : r < h.length) :
    heapGet (h ++ ext) r = heapGet h r := by
  unfold heapGet
  rw [List.getD_eq_getElem?_getD, List.getD_eq_getElem?_getD,
    List.getElem?_append, if_pos hr]

theorem heapGet_set_ne (h : RowHeap) (r r2 : Nat) (v : RowData) (hne : r2 ≠ r) :
    heapGet (heapSet h r v) r2 = heapGet h r2 := by
  unfold heapGet heapSet
  rw [List.getD_eq_getElem?_getD, List.getElem?_set_ne (by omega),
    ← List.getD_eq_getElem?_getD]

theorem deepCopyRow_eq (s : RefStore) (i : Nat) (ref : Nat) (s1 : RefStore)
    (h : s.DeepCopyRow i = some (ref, s1)) :
    i < s.rowRefs.length ∧ ref = s.heap.length ∧
    s1.rowRefs = s.rowRefs ∧
    s1.heap = s.heap ++ [heapGet s.heap (s.rowRefs.getD i 0)] := by
  unfold RefStore.DeepCopyRow at h
  split at h
  · injection h with h
    injection h with h1 h2
    rw [← h2, ← h1]
    exact ⟨by assumption, rfl, rfl, rfl⟩
  · exact absurd h (by simp)

theorem iterFrom_spec (idxs : List Nat) :
    ∀ s : RefStore,
      (iterFrom idxs s).2.rowRefs = s.rowRefs ∧
      (∃ ext, (iterFrom idxs s).2.heap = s.heap ++ ext) ∧
      ∀ ref ∈ (iterFrom idxs s).1, s.heap.length ≤ ref := by
  induction idxs with
  | nil =>
    intro s
    exact ⟨rfl, ⟨[], by simp [iterFrom]⟩, by simp [iterFrom]⟩
  | cons i rest ih =>
    intro s
    cases hd : s.DeepCopyRow i with
    | none =>
      have hred : iterFrom (i :: rest) s = ([], s) := by
        unfold iterFrom
        rw [hd]
      rw [hred]
      exact ⟨rfl, ⟨[], by simp⟩, by simp⟩
    | some pr =>
      obtain ⟨r, s1⟩ := pr
      obtain ⟨hi, hr, hrefs, hheap⟩ := deepCopyRow_eq s i r s1 hd
      have hred1 : (iterFrom (i :: rest) s).1 = r :: (iterFrom rest s1).1 := by
        conv_lhs => unfold iterFrom
        rw [hd]
      have hred2 : (iterFrom (i :: rest) s).2 = (iterFrom rest s1).2 := by
        conv_lhs => unfold iterFrom
        rw [hd]
      obtain ⟨ih1, ⟨ext, ih2⟩, ih3⟩ := ih s1
      refine ⟨by rw [hred2, ih1, hrefs], ⟨[heapGet s.heap (s.rowRefs.getD i 0)] ++ ext, ?_⟩, ?_⟩
      · rw [hred2, ih2, hheap, List.append_assoc]
      · intro ref href
        rw [hred1] at href
        simp only [List.mem_cons] at href
        rcases href with href | href
        · omega
        · have := ih3 ref href
          rw [hheap] at this
          simp at this
          omega

/-- C8: `GetRow` and every element yielded by `GetRowsIterator` are fully
detached copies: the returned reference is not one of the store's row
references, its cell holds the same value as the stored row, and mutating
the object behind the returned reference leaves every stored row's value
unchanged. -/
theorem copy_isolation (s : RefStore) (hwf : s.WF) :
    (∀ i ref s1, s.GetRow i = some (ref, s1) →
      ref ∉ s1.rowRefs ∧ s1.rowRefs = s.rowRefs ∧
      heapGet s1.heap ref = heapGet s.heap (s.rowRefs.getD i 0) ∧
      ∀ v j, j < s.rowRefs.length →
        heapGet (heapSet s1.heap ref v) (s.rowRefs.getD j 0) =
          heapGet s.heap (s.rowRefs.getD j 0)) ∧
    (∀ ref ∈ (s.GetRowsIterator).1,
      ref ∉ s.rowRefs ∧
      ∀ v j, j < s.rowRefs.length →
        heapGet (heapSet (s.GetRowsIterator).2.heap ref v) (s.rowRefs.getD j 0) =
          heapGet s.heap (s.rowRefs.getD j 0)) := by
  have hmem : ∀ j, j < s.rowRefs.length → s.rowRefs.getD j 0 ∈ s.rowRefs := by
    intro j hj
    rw [List.getD_eq_getElem s.rowRefs 0 hj]
    exact List.getElem_mem hj
  constructor
  · intro i ref s1 hget
    obtain ⟨hi, hr, hrefs, hheap⟩ := deepCopyRow_eq s i ref s1 hget
    have hnotmem : ref ∉ s1.rowRefs := by
      rw [hrefs, hr]
      intro hin
      exact absurd (hwf _ hin) (by omega)
    refine ⟨hnotmem, hrefs, ?_, ?_⟩
    · rw [hheap, hr]
      unfold heapGet
      rw [List.getD_eq_getElem?_getD, List.getElem?_append_right (le_refl _)]
      simp
    · intro v j hj
      have hjmem := hmem j hj
      have hjlt : s.rowRefs.getD j 0 < s.heap.length := hwf _ hjmem
      rw [heapGet_set_ne _ _ _ _ (by omega), hheap,
        heapGet_append _ _ _ hjlt]
  · intro ref href
    obtain ⟨hrefs, ⟨ext, hheap⟩, hge⟩ := iterFrom_spec (List.range s.rowRefs.length) s
    have hG : (s.GetRowsIterator).2.heap = s.heap ++ ext := hheap
    have hgeref := hge ref href
    constructor
    · intro hin
      exact absurd (hwf _ hin) (by omega)
    · intro v j hj
      have hjmem := hmem j hj
      have hjlt : s.rowRefs.getD j 0 < s.heap.length := hwf _ hjmem
      rw [heapGet_set_ne _ _ _ _ (by omega), hG,
        heapGet_append _ _ _ hjlt]

/-- Witness for copy isolation on a concrete two-row reference store:
mutating the copy returned by `GetRow 0` leaves both stored rows
unchanged. -/
theorem copy_isolation_witness :
    refStore2.GetRow 0 = some (2, refStore2Copy) ∧
    2 ∉ refStore2Copy.rowRefs ∧
    heapGet (heapSet refStore2Copy.heap 2 rowStale) (refStore2.rowRefs.getD 0 0) =
      heapGet refStore2.heap (refStore2.rowRefs.getD 0 0) := by
  have hwf : refStore2.WF := by
    intro r hr
    simp [refStore2] at hr
    rcases hr with hr | hr <;> simp [hr, refStore2]
  have hget : refStore2.GetRow 0 = some (2, refStore2Copy) := by decide
  have h2 := (copy_isolation refStore2 hwf).1 0 2 refStore2Copy hget
  exact ⟨hget, h2.1, h2.2.2.2 rowStale 0 (by decide)⟩
